import Mathlib

/-!
Verification of the pystdf binary record codec (src/pystdf/IO.py, Types.py,
Parse.py, PartSummarizer.py, V4.py) through a shallow embedding.

Conventions of the embedding:
* a Python 2 byte string is a `List Nat` of byte values;
* the heterogeneous record value vector is a `List Val`;
* integer scalars are decoded with the little-endian layout (the CPU code 2
  case fixed by detectEndian; the big-endian case is symmetric and is not
  needed by any claim below);
* the floating point formats R4/R8 are outside the embedding: their readers
  and packers are `none`, and no theorem below depends on a float field
  actually packing (in the inputs used, float-valued slots are either absent,
  empty arrays, or take the missing-data branch that never packs a float);
* Python exceptions are modelled with `Option`/`Except`: a failing
  struct.unpack/pack is `none`, a raised exception in record-level code is
  `Except.error`.
-/

namespace PyStdf

/-- Python runtime values that appear in a record value vector: None, ints,
byte strings, tuples of byte ints (readBn/readDn results), lists (arrays),
and a (flagField, mask) sentinel tuple as assigned verbatim by decodeValues
on a truncated record. -/
inductive Val where
  | none : Val
  | num : Int → Val
  | str : List Nat → Val
  | bytes : List Nat → Val
  | list : List Val → Val
  | pair : String → Nat → Val
deriving Repr

mutual

/-- Decidable equality on values (Python == between sentinel shapes). -/
def Val.decEq : (a b : Val) → Decidable (a = b)
  | Val.none, Val.none => Decidable.isTrue rfl
  | Val.num a, Val.num b =>
      if h : a = b then Decidable.isTrue (by rw [h])
      else Decidable.isFalse (fun hh => h (Val.num.inj hh))
  | Val.str a, Val.str b =>
      if h : a = b then Decidable.isTrue (by rw [h])
      else Decidable.isFalse (fun hh => h (Val.str.inj hh))
  | Val.bytes a, Val.bytes b =>
      if h : a = b then Decidable.isTrue (by rw [h])
      else Decidable.isFalse (fun hh => h (Val.bytes.inj hh))
  | Val.list a, Val.list b =>
      match Val.decEqs a b with
      | Decidable.isTrue h => Decidable.isTrue (by rw [h])
      | Decidable.isFalse h => Decidable.isFalse (fun hh => h (Val.list.inj hh))
  | Val.pair a m, Val.pair b n =>
      if h1 : a = b then
        if h2 : m = n then Decidable.isTrue (by rw [h1, h2])
        else Decidable.isFalse (fun hh => h2 (Val.pair.inj hh).2)
      else Decidable.isFalse (fun hh => h1 (Val.pair.inj hh).1)
  | Val.none, Val.num _ => Decidable.isFalse (fun h => Val.noConfusion h)
  | Val.none, Val.str _ => Decidable.isFalse (fun h => Val.noConfusion h)
  | Val.none, Val.bytes _ => Decidable.isFalse (fun h => Val.noConfusion h)
  | Val.none, Val.list _ => Decidable.isFalse (fun h => Val.noConfusion h)
  | Val.none, Val.pair _ _ => Decidable.isFalse (fun h => Val.noConfusion h)
  | Val.num _, Val.none => Decidable.isFalse (fun h => Val.noConfusion h)
  | Val.num _, Val.str _ => Decidable.isFalse (fun h => Val.noConfusion h)
  | Val.num _, Val.bytes _ => Decidable.isFalse (fun h => Val.noConfusion h)
  | Val.num _, Val.list _ => Decidable.isFalse (fun h => Val.noConfusion h)
  | Val.num _, Val.pair _ _ => Decidable.isFalse (fun h => Val.noConfusion h)
  | Val.str _, Val.none => Decidable.isFalse (fun h => Val.noConfusion h)
  | Val.str _, Val.num _ => Decidable.isFalse (fun h => Val.noConfusion h)
  | Val.str _, Val.bytes _ => Decidable.isFalse (fun h => Val.noConfusion h)
  | Val.str _, Val.list _ => Decidable.isFalse (fun h => Val.noConfusion h)
  | Val.str _, Val.pair _ _ => Decidable.isFalse (fun h => Val.noConfusion h)
  | Val.bytes _, Val.none => Decidable.isFalse (fun h => Val.noConfusion h)
  | Val.bytes _, Val.num _ => Decidable.isFalse (fun h => Val.noConfusion h)
  | Val.bytes _, Val.str _ => Decidable.isFalse (fun h => Val.noConfusion h)
  | Val.bytes _, Val.list _ => Decidable.isFalse (fun h => Val.noConfusion h)
  | Val.bytes _, Val.pair _ _ => Decidable.isFalse (fun h => Val.noConfusion h)
  | Val.list _, Val.none => Decidable.isFalse (fun h => Val.noConfusion h)
  | Val.list _, Val.num _ => Decidable.isFalse (fun h => Val.noConfusion h)
  | Val.list _, Val.str _ => Decidable.isFalse (fun h => Val.noConfusion h)
  | Val.list _, Val.bytes _ => Decidable.isFalse (fun h => Val.noConfusion h)
  | Val.list _, Val.pair _ _ => Decidable.isFalse (fun h => Val.noConfusion h)
  | Val.pair _ _, Val.none => Decidable.isFalse (fun h => Val.noConfusion h)
  | Val.pair _ _, Val.num _ => Decidable.isFalse (fun h => Val.noConfusion h)
  | Val.pair _ _, Val.str _ => Decidable.isFalse (fun h => Val.noConfusion h)
  | Val.pair _ _, Val.bytes _ => Decidable.isFalse (fun h => Val.noConfusion h)
  | Val.pair _ _, Val.list _ => Decidable.isFalse (fun h => Val.noConfusion h)

/-- Decidable equality on value lists. -/
def Val.decEqs : (a b : List Val) → Decidable (a = b)
  | [], [] => Decidable.isTrue rfl
  | a :: as, b :: bs =>
      match Val.decEq a b with
      | Decidable.isTrue h1 =>
          match Val.decEqs as bs with
          | Decidable.isTrue h2 => Decidable.isTrue (by rw [h1, h2])
          | Decidable.isFalse h2 =>
              Decidable.isFalse (fun hh => h2 (List.cons.inj hh).2)
      | Decidable.isFalse h1 =>
          Decidable.isFalse (fun hh => h1 (List.cons.inj hh).1)
  | [], _ :: _ => Decidable.isFalse (fun h => List.noConfusion h)
  | _ :: _, [] => Decidable.isFalse (fun h => List.noConfusion h)

end

instance : DecidableEq Val := Val.decEq

/-- Decidable equality for Except results, used to evaluate the embedded
functions at concrete inputs. -/
def exceptDecEq {ε α : Type} [DecidableEq ε] [DecidableEq α] :
    (a b : Except ε α) → Decidable (a = b)
  | Except.error e, Except.error f =>
      if h : e = f then Decidable.isTrue (by rw [h])
      else Decidable.isFalse (fun hh => h (Except.error.inj hh))
  | Except.ok x, Except.ok y =>
      if h : x = y then Decidable.isTrue (by rw [h])
      else Decidable.isFalse (fun hh => h (Except.ok.inj hh))
  | Except.error _, Except.ok _ => Decidable.isFalse (fun h => Except.noConfusion h)
  | Except.ok _, Except.error _ => Decidable.isFalse (fun h => Except.noConfusion h)

instance {ε α : Type} [DecidableEq ε] [DecidableEq α] : DecidableEq (Except ε α) :=
  exceptDecEq

/-- The STDF type tags appearing in field maps, restricted to the tags the
claims exercise (Sn, Cf and Uf never occur in them; Vn is handled by the
dedicated readVn function as in the source). -/
inductive Fmt where
  | U1 | U2 | U4 | I1 | I2 | I4 | B1 | C1 | N1
  | Cn | Bn | Dn | R4 | R8
deriving Repr, DecidableEq

/-- Missing/invalid sentinel of a field: required (None), a literal default,
or an optional-flag indirection (flagFieldName, mask). -/
inductive Missing where
  | required : Missing
  | lit : Val → Missing
  | flag : String → Nat → Missing
deriving Repr, DecidableEq

/-- One entry of a field map together with the descriptor data that
registerMe (V4.py) precomputes: the array element tag and the ordinal of the
count field for a kxT array field. -/
structure Field where
  name : String
  fmt : Fmt
  missing : Missing
  arrayFmt : Option Fmt := Option.none
  arrayNdx : Nat := 0
deriving Repr, DecidableEq

instance : Inhabited Field := ⟨⟨"", Fmt.U1, Missing.required, Option.none, 0⟩⟩

/-- The value decodeValues assigns when a field starts at or beyond the end
of the buffer: the sentinel object itself (vals[index] = missing). -/
def missingVal : Missing → Val
  | Missing.required => Val.none
  | Missing.lit v => v
  | Missing.flag f m => Val.pair f m

/-- Little-endian bytes of a natural number, fixed width. -/
def natToBytesLE : Nat → Nat → List Nat
  | 0, _ => []
  | w + 1, v => v % 256 :: natToBytesLE w (v / 256)

/-- Little-endian value of a byte list. -/
def bytesToNatLE : List Nat → Nat
  | [] => 0
  | b :: bs => b + 256 * bytesToNatLE bs

/-- Byte width of the fixed scalar formats (calcsize of the struct code). -/
def fmtWidth : Fmt → Nat
  | Fmt.U1 => 1 | Fmt.U2 => 2 | Fmt.U4 => 4
  | Fmt.I1 => 1 | Fmt.I2 => 2 | Fmt.I4 => 4
  | Fmt.B1 => 1 | Fmt.C1 => 1 | Fmt.N1 => 1
  | Fmt.Cn => 0 | Fmt.Bn => 0 | Fmt.Dn => 0
  | Fmt.R4 => 4 | Fmt.R8 => 8

/-- Reads `w` bytes at `oft`; none when the buffer is too short
(struct.error from unpack_from). -/
def readBytes (buf : List Nat) (oft w : Nat) : Option (List Nat) :=
  if oft + w ≤ buf.length then Option.some ((buf.drop oft).take w) else Option.none

/-- Two's-complement reading of an unsigned value of `w` bytes. -/
def toSigned (w : Nat) (n : Nat) : Int :=
  if n < 2 ^ (8 * w - 1) then (n : Int) else (n : Int) - 2 ^ (8 * w)

/-- readField (IO.py): unpack one fixed-width scalar at `oft` under the
active (little) endian.  C1 yields a one-byte string, N1 is not a member of
stdf2unpack (the source raises KeyError on a scalar N1), R4/R8 are outside
the embedding. -/
def readFmt (fmt : Fmt) (buf : List Nat) (oft : Nat) : Option (Val × Nat) :=
  match fmt with
  | Fmt.U1 | Fmt.B1 =>
      (readBytes buf oft 1).map fun bs => (Val.num (bytesToNatLE bs), oft + 1)
  | Fmt.U2 =>
      (readBytes buf oft 2).map fun bs => (Val.num (bytesToNatLE bs), oft + 2)
  | Fmt.U4 =>
      (readBytes buf oft 4).map fun bs => (Val.num (bytesToNatLE bs), oft + 4)
  | Fmt.I1 =>
      (readBytes buf oft 1).map fun bs => (Val.num (toSigned 1 (bytesToNatLE bs)), oft + 1)
  | Fmt.I2 =>
      (readBytes buf oft 2).map fun bs => (Val.num (toSigned 2 (bytesToNatLE bs)), oft + 2)
  | Fmt.I4 =>
      (readBytes buf oft 4).map fun bs => (Val.num (toSigned 4 (bytesToNatLE bs)), oft + 4)
  | Fmt.C1 =>
      (readBytes buf oft 1).map fun bs => (Val.str bs, oft + 1)
  | Fmt.Cn =>
      match readBytes buf oft 1 with
      | Option.none => Option.none
      | Option.some szb =>
          let size := bytesToNatLE szb
          if size = 0 then Option.some (Val.str [], oft + 1)
          else (readBytes buf (oft + 1) size).map fun bs => (Val.str bs, oft + 1 + size)
  | Fmt.Bn =>
      match readBytes buf oft 1 with
      | Option.none => Option.none
      | Option.some szb =>
          let size := bytesToNatLE szb
          (readBytes buf (oft + 1) size).map fun bs => (Val.bytes bs, oft + 1 + size)
  | Fmt.Dn =>
      match readBytes buf oft 2 with
      | Option.none => Option.none
      | Option.some szb =>
          let bits := bytesToNatLE szb
          let size := bits / 8 + (if bits % 8 > 0 then 1 else 0)
          (readBytes buf (oft + 2) size).map fun bs => (Val.bytes bs, oft + 2 + size)
  | Fmt.N1 | Fmt.R4 | Fmt.R8 => Option.none

/-- readArray (IO.py), plain element path (no Uf/Cf indirection): read
`cnt` elements of the element tag, threading the offset. -/
def readArrayF (buf : List Nat) (ef : Fmt) : Nat → Nat → Option (List Val × Nat)
  | 0, oft => Option.some ([], oft)
  | cnt + 1, oft =>
      match readFmt ef buf oft with
      | Option.none => Option.none
      | Option.some (v, oft') =>
          (readArrayF buf ef cnt oft').map fun p => (v :: p.1, p.2)

/-- The nibble-splitting loop of readNibbleArray: each byte contributes its
low nibble and, while more elements are wanted, its high nibble. -/
def nibbleExpand : List Nat → Nat → List Val
  | [], _ => []
  | _ :: _, 0 => []
  | b :: _, 1 => [Val.num (b % 16)]
  | b :: bs, cnt + 2 => Val.num (b % 16) :: Val.num (b / 16) :: nibbleExpand bs cnt

/-- readNibbleArray (IO.py): ceil(cnt/2) bytes, first element in the low
nibble. -/
def readNibbleArray (buf : List Nat) (oft cnt : Nat) : Option (List Val × Nat) :=
  let numReads := cnt / 2 + cnt % 2
  (readBytes buf oft numReads).map fun bs => (nibbleExpand bs cnt, oft + numReads)

/-- Python truthiness of the array-count value: range(n) of an int; any
other type would raise TypeError in the source. -/
def valCount : Val → Option Nat
  | Val.num n => Option.some n.toNat
  | _ => Option.none

/-- How a decodeValues run ended: complete (all fields processed), stopped
(a struct.error was printed and swallowed, the loop returned early), or
crashed (a non struct exception propagated out of the function). -/
inductive DecStatus where
  | complete | stopped | crashed
deriving Repr, DecidableEq

/-- Result of decodeValues: the value vector, the final cursor, the way the
run ended, and whether some field was assigned its missing sentinel because
its start offset was at or past the end of the buffer. -/
structure DecRes where
  vals : List Val
  oft : Nat
  status : DecStatus
  truncated : Bool
deriving Repr, DecidableEq

/-- The field loop of decodeValues (IO.py): fields at or past the end of the
buffer get their sentinel assigned and the loop continues; otherwise the
field is read at the cursor by its tag (array fields resolve their count
from the already-decoded vector).  The Vn branch delegates to readVn and is
modelled separately with it. -/
def decodeGo (buf : List Nat) : List Field → Nat → List Val → Nat → DecRes
  | [], _, vals, oft => ⟨vals, oft, DecStatus.complete, false⟩
  | f :: rest, i, vals, oft =>
      if oft ≥ buf.length then
        let r := decodeGo buf rest (i + 1) (vals.set i (missingVal f.missing)) oft
        ⟨r.vals, r.oft, r.status, true⟩
      else
        match f.arrayFmt with
        | Option.some ef =>
            match valCount (vals.getD f.arrayNdx Val.none) with
            | Option.none => ⟨vals, oft, DecStatus.crashed, false⟩
            | Option.some cnt =>
                match (if ef = Fmt.N1 then readNibbleArray buf oft cnt
                       else (readArrayF buf ef cnt oft).map fun p => (p.1, p.2)) with
                | Option.none => ⟨vals, oft, DecStatus.stopped, false⟩
                | Option.some (vs, oft') =>
                    decodeGo buf rest (i + 1) (vals.set i (Val.list vs)) oft'
        | Option.none =>
            match readFmt f.fmt buf oft with
            | Option.none => ⟨vals, oft, DecStatus.stopped, false⟩
            | Option.some (v, oft') => decodeGo buf rest (i + 1) (vals.set i v) oft'

/-- decodeValues (IO.py) on a record with the given field map and buffer:
the value vector starts as all None (setFieldMap) and the cursor at 0. -/
def decodeValues (fields : List Field) (buf : List Nat) : DecRes :=
  decodeGo buf fields 0 (List.replicate fields.length Val.none) 0

/-- The GEN_DATA_ name stem used by readVn and checked by encodeRecord. -/
def GEN_DATA : String := "GEN_DATA_"

/-- A value as a byte sequence acceptable to pack with B codes: a tuple of
byte ints (as decoded) or a list of ints in range; anything else raises. -/
def byteSeq : Val → Option (List Nat)
  | Val.bytes bs => if bs.all (fun b => b < 256) then Option.some bs else Option.none
  | Val.list vs =>
      vs.mapM fun v =>
        match v with
        | Val.num n => if 0 ≤ n ∧ n < 256 then Option.some n.toNat else Option.none
        | _ => Option.none
  | _ => Option.none

/-- The per-tag packers of IO.py (packField through packDn, and the entries
of packMap): struct range errors are none.  N1 packs through the U1 code,
Cn/Bn emit a one-byte count, Dn emits the byte count times eight as its
16-bit bit count (the documented byte-granular round-trip). -/
def packFmt : Fmt → Val → Option (List Nat)
  | Fmt.U1, Val.num n => if 0 ≤ n ∧ n < 256 then Option.some [n.toNat] else Option.none
  | Fmt.B1, Val.num n => if 0 ≤ n ∧ n < 256 then Option.some [n.toNat] else Option.none
  | Fmt.N1, Val.num n => if 0 ≤ n ∧ n < 256 then Option.some [n.toNat] else Option.none
  | Fmt.U2, Val.num n =>
      if 0 ≤ n ∧ n < 65536 then Option.some (natToBytesLE 2 n.toNat) else Option.none
  | Fmt.U4, Val.num n =>
      if 0 ≤ n ∧ n < 4294967296 then Option.some (natToBytesLE 4 n.toNat) else Option.none
  | Fmt.I1, Val.num n =>
      if -128 ≤ n ∧ n < 128 then Option.some [(n % 256).toNat] else Option.none
  | Fmt.I2, Val.num n =>
      if -32768 ≤ n ∧ n < 32768 then Option.some (natToBytesLE 2 (n % 65536).toNat)
      else Option.none
  | Fmt.I4, Val.num n =>
      if -2147483648 ≤ n ∧ n < 2147483648 then
        Option.some (natToBytesLE 4 (n % 4294967296).toNat)
      else Option.none
  | Fmt.C1, Val.str [b] => Option.some [b]
  | Fmt.Cn, Val.str s => if s.length < 256 then Option.some (s.length :: s) else Option.none
  | Fmt.Bn, v =>
      (byteSeq v).bind fun bs =>
        if bs.length < 256 then Option.some (bs.length :: bs) else Option.none
  | Fmt.Dn, v =>
      (byteSeq v).bind fun bs =>
        if bs.length * 8 < 65536 then Option.some (natToBytesLE 2 (bs.length * 8) ++ bs)
        else Option.none
  | _, _ => Option.none

/-- The variant-tag codes of vnPackMap (IO.py); the B0 entry is unreachable
because readVn never stores a pad slot into the field map. -/
def vnPackTag : Fmt → Option Nat
  | Fmt.U1 => Option.some 1 | Fmt.U2 => Option.some 2 | Fmt.U4 => Option.some 3
  | Fmt.I1 => Option.some 4 | Fmt.I2 => Option.some 5 | Fmt.I4 => Option.some 6
  | Fmt.R4 => Option.some 7 | Fmt.R8 => Option.some 8
  | Fmt.Cn => Option.some 10 | Fmt.Bn => Option.some 11 | Fmt.Dn => Option.some 12
  | Fmt.N1 => Option.some 13
  | _ => Option.none

/-- packVn (IO.py): one tag byte then the packed value. -/
def packVn (fmt : Fmt) (v : Val) : Option (List Nat) :=
  match vnPackTag fmt with
  | Option.none => Option.none
  | Option.some tag => (packFmt fmt v).map fun bs => tag :: bs

/-- defaultDataMap (IO.py).  The float entries stand in for -1e300 with an
integer; no theorem below ever packs them (they are only ever stored into a
value vector by the missing-field branch, which packs the flag field
instead). -/
def defaultDataMap : Fmt → Val
  | Fmt.C1 => Val.str [32]
  | Fmt.B1 => Val.num 255
  | Fmt.U1 => Val.num 255
  | Fmt.U2 => Val.num 65535
  | Fmt.U4 => Val.num 4294967295
  | Fmt.I1 => Val.num (-128)
  | Fmt.I2 => Val.num (-32768)
  | Fmt.I4 => Val.num (-2147483648)
  | Fmt.N1 => Val.num 15
  | Fmt.Cn => Val.str []
  | Fmt.Bn => Val.list []
  | Fmt.Dn => Val.list []
  | Fmt.R4 => Val.num (-(10 ^ 300 : Int))
  | Fmt.R8 => Val.num (-(10 ^ 300 : Int))

/-- Decimal ASCII bytes of an int, as Python str produces them. -/
def decimalBytes (n : Int) : List Nat :=
  if n < 0 then 45 :: (Nat.toDigits 10 n.natAbs).map Char.toNat
  else (Nat.toDigits 10 n.toNat).map Char.toNat

/-- Python str of a literal missing sentinel, as evaluated by the source
line record.values[index] = val = str(missing).  In the V4 schemas the
literal sentinels are ints, empty strings and empty lists; other shapes do
not occur and get a placeholder byte. -/
def pyStr : Val → List Nat
  | Val.num n => decimalBytes n
  | Val.str s => s
  | Val.list [] => [91, 93]
  | _ => [63]

/-- Python truthiness of a value. -/
def pyTruthy : Val → Bool
  | Val.none => false
  | Val.num n => decide (n ≠ 0)
  | Val.str s => decide (s ≠ [])
  | Val.bytes bs => decide (bs ≠ [])
  | Val.list vs => decide (vs ≠ [])
  | Val.pair _ _ => true

/-- Python or of two values: the first when truthy, otherwise the second. -/
def pyOr (a b : Val) : Val := if pyTruthy a then a else b

/-- reduce(lambda x, y: x or y, values): none models the TypeError on an
empty sequence. -/
def reduceOr : List Val → Option Val
  | [] => Option.none
  | v :: vs => Option.some (vs.foldl pyOr v)

/-- packNibbleArray (IO.py): pairs of elements share a byte, the earlier
element in the low nibble (values[i] & 0xF, which is mod 16 also for
negative ints, as in Python), the later shifted left four bits unmasked, so
an element of 16 or more, or a negative later element, fails the U1 pack. -/
def nibblePack : List Val → Option (List Nat)
  | [] => Option.some []
  | [Val.num a] => Option.some [(a % 16).toNat]
  | Val.num a :: Val.num b :: rest =>
      if b < 0 then Option.none
      else
        let v := (a % 16).toNat ||| (b.toNat <<< 4)
        if v < 256 then (nibblePack rest).map fun bs => v :: bs else Option.none
  | _ => Option.none

/-- encodeMissingField (IO.py).  Required sentinel raises; a (flagField,
mask) sentinel stores the default into the missing field's value slot, ors
flagField.missing xor mask into the flag value, re-packs the flag field into
its processedData slot, and returns those same flag bytes (which the caller
then stores into the missing field's own slot); a literal sentinel stores
and returns str(missing). -/
def encodeMissingField (all : List Field) (f : Field) (i : Nat) (vals : List Val)
    (pd : List (List Nat)) : Except String (List Val × List (List Nat) × List Nat) :=
  match f.missing with
  | Missing.required => Except.error "EndOfRecordException: required data missing"
  | Missing.flag fname mask =>
      match List.findIdx? (fun g => g.name == fname) all with
      | Option.none => Except.error "AttributeError"
      | Option.some j =>
          let ff := all.getD j default
          let vals1 := vals.set i
            (if f.arrayFmt.isSome then Val.list [] else defaultDataMap f.fmt)
          match ff.missing, vals1.getD j Val.none with
          | Missing.lit (Val.num fm), Val.num cur =>
              if fm < 0 ∨ cur < 0 then Except.error "unmodelled negative flag"
              else
                let nf : Nat := cur.toNat ||| (fm.toNat ^^^ mask)
                let vals2 := vals1.set j (Val.num (nf : Int))
                match packFmt ff.fmt (Val.num (nf : Int)) with
                | Option.none => Except.error "EndOfRecordException: pack"
                | Option.some bs => Except.ok (vals2, pd.set j bs, bs)
          | _, _ => Except.error "TypeError"
  | Missing.lit v => Except.ok (vals.set i (Val.str (pyStr v)), pd, pyStr v)

/-- encodeArrayField (IO.py): pack the elements (nibble-paired for N1),
then, when the stored count differs from the actual element count, store the
actual count and re-pack the count field's already-emitted bytes. -/
def encodeArrayField (all : List Field) (i : Nat) (ef : Fmt) (c : Nat)
    (vals : List Val) (pd : List (List Nat)) :
    Except String (List Val × List (List Nat)) :=
  match vals.getD i Val.none with
  | Val.list vs =>
      match (if ef = Fmt.N1 then nibblePack vs
             else (vs.mapM (packFmt ef)).map List.flatten) with
      | Option.none => Except.error "EndOfRecordException: pack"
      | Option.some bs =>
          let newCount := vs.length
          if vals.getD c Val.none ≠ Val.num newCount then
            match packFmt (all.getD c default).fmt (Val.num newCount) with
            | Option.none => Except.error "EndOfRecordException: pack"
            | Option.some cb =>
                Except.ok (vals.set c (Val.num newCount), (pd.set c cb).set i bs)
          else Except.ok (vals, pd.set i bs)
  | _ => Except.error "TypeError"

/-- The field loop of encodeRecord (IO.py).  A None value takes the
missing-field branch and stores its returned bytes into the field's own
slot; arrays go through encodeArrayField; GEN_DATA_ fields re-emit their
variant tag; everything else packs by tag (the source's inline Cn branch and
its packMap dispatch are the corresponding cases of packFmt). -/
def encodeGo (all : List Field) : List Field → Nat → List Val → List (List Nat) →
    Except String (List Val × List (List Nat))
  | [], _, vals, pd => Except.ok (vals, pd)
  | f :: rest, i, vals, pd =>
      if vals.getD i Val.none = Val.none then
        match encodeMissingField all f i vals pd with
        | Except.error e => Except.error e
        | Except.ok (vals', pd', bs) => encodeGo all rest (i + 1) vals' (pd'.set i bs)
      else
        match f.arrayFmt with
        | Option.some ef =>
            match encodeArrayField all i ef f.arrayNdx vals pd with
            | Except.error e => Except.error e
            | Except.ok (vals', pd') => encodeGo all rest (i + 1) vals' pd'
        | Option.none =>
            if f.name.startsWith GEN_DATA then
              match packVn f.fmt (vals.getD i Val.none) with
              | Option.none => Except.error "EndOfRecordException: pack"
              | Option.some bs => encodeGo all rest (i + 1) vals (pd.set i bs)
            else
              match packFmt f.fmt (vals.getD i Val.none) with
              | Option.none => Except.error "EndOfRecordException: pack"
              | Option.some bs => encodeGo all rest (i + 1) vals (pd.set i bs)

/-- encodeRecord (IO.py): the lazy shortcut returns the stored buffer
verbatim when the buffer is truthy and the or-reduction of the values is
None; otherwise the field loop produces the per-field byte slots (the
processedData list, pre-sized to the field map). -/
def encodeRecord (fields : List Field) (buffer : List Nat) (values : List Val) :
    Except String (Sum (List Nat) (List (List Nat))) :=
  if buffer ≠ [] ∧ reduceOr values = Option.none then
    Except.error "TypeError: reduce of empty sequence"
  else if buffer ≠ [] ∧ reduceOr values = Option.some Val.none then
    Except.ok (Sum.inl buffer)
  else
    match encodeGo fields fields 0 values (List.replicate fields.length []) with
    | Except.error e => Except.error e
    | Except.ok (_, pd) => Except.ok (Sum.inr pd)

/-- The byte string the packRecord wrapper obtains from an encodeRecord
result when joining it (a shortcut buffer joins to itself). -/
def joinEncoded : Sum (List Nat) (List (List Nat)) → List Nat
  | Sum.inl b => b
  | Sum.inr pd => pd.flatten

/-- The two byte orders a stream can use. -/
inductive Endian where
  | little | big
deriving Repr, DecidableEq

/-- detectEndian (IO.py): seek to 0, unpack the first five bytes as
(length, type, subtype, cpuType), raise InitialSequence when type is not 0
AND subtype is not 10 (the condition exactly as written in the source),
otherwise choose little-endian exactly for cpuType 2 and seek back to the
position held on entry.  Fewer than five bytes make the unpack raise
struct.error. -/
def detectEndian (stream : List Nat) (pos : Nat) : Except String (Endian × Nat) :=
  if 5 ≤ stream.length then
    if stream.getD 2 0 ≠ 0 ∧ stream.getD 3 0 ≠ 10 then
      Except.error "InitialSequenceException"
    else
      Except.ok ((if stream.getD 4 0 = 2 then Endian.little else Endian.big), pos)
  else Except.error "struct.error"

/-- The per-site (partCnt, goodCnt, abortCnt) triple that
PartSummarizer.onPrr accumulates. -/
structure PartCounts where
  part : Nat
  good : Nat
  abort : Nat
deriving Repr, DecidableEq

/-- onPrr (PartSummarizer.py lines 86-92): the part count always rises, the
good count rises when PART_FLG & 0x08 == 0, and the abort count rises when
PART_FLG & 0x04 == 0 - the conditions exactly as the source writes them. -/
def onPrr (partFlg : Nat) (c : PartCounts) : PartCounts :=
  { part := c.part + 1
    good := if partFlg &&& 8 = 0 then c.good + 1 else c.good
    abort := if partFlg &&& 4 = 0 then c.abort + 1 else c.abort }

/-- A registered record kind: its class name and field map. -/
structure Schema where
  name : String
  fields : List Field
deriving Repr, DecidableEq

/-- A record as delivered to the sinks by send. -/
structure Emitted where
  name : String
  typ : Nat
  sub : Nat
  vals : List Val
  buffer : List Nat
deriving Repr, DecidableEq

/-- Lookup in the record registry (V4.RecordRegistrar keyed by (typ, sub)). -/
def lookupReg (reg : List ((Nat × Nat) × Schema)) (typ sub : Nat) : Option Schema :=
  (reg.find? (fun e => e.1 == (typ, sub))).map Prod.snd

/-- parse_records (Parse.py): read a 4-byte header (EofException on a short
read ends the loop normally); a registered (typ, sub) reads its payload
(EofException when short), decodes it and sends the record to the sinks; an
unregistered pair only consumes header.len payload bytes and continues with
the next record.  The fuel argument bounds the iteration count; each
iteration consumes at least four bytes, so fuel equal to the stream length
always suffices.  Send is modelled from the spec as appending to the list
of records delivered, in order, to every sink; a crashed decode cancels the
parse after the records sent so far. -/
def parseGo (reg : List ((Nat × Nat) × Schema)) :
    Nat → List Nat → List Emitted → List Emitted
  | 0, _, acc => acc
  | fuel + 1, stream, acc =>
      if 4 ≤ stream.length then
        let len := stream.getD 0 0 + 256 * stream.getD 1 0
        let typ := stream.getD 2 0
        let sub := stream.getD 3 0
        let rest := stream.drop 4
        match lookupReg reg typ sub with
        | Option.some sc =>
            if len ≤ rest.length then
              let buffer := rest.take len
              let r := decodeValues sc.fields buffer
              if r.status = DecStatus.crashed then acc
              else
                parseGo reg fuel (rest.drop len)
                  (acc ++ [⟨sc.name, typ, sub, r.vals, buffer⟩])
            else acc
        | Option.none => parseGo reg fuel (rest.drop len) acc
      else acc

/-- parse_records from the start of a stream with no sink output yet. -/
def parseRecords (reg : List ((Nat × Nat) × Schema)) (stream : List Nat) :
    List Emitted :=
  parseGo reg stream.length stream []

/-- vnReadMap (IO.py): variant tag code to (format recorded in the field
map, format actually read); tag 13 records N1 but reads a U1.  Codes not in
the map (0 included) take the b0Pad branch. -/
def vnReadEntry : Nat → Option (Fmt × Fmt)
  | 1 => Option.some (Fmt.U1, Fmt.U1)
  | 2 => Option.some (Fmt.U2, Fmt.U2)
  | 3 => Option.some (Fmt.U4, Fmt.U4)
  | 4 => Option.some (Fmt.I1, Fmt.I1)
  | 5 => Option.some (Fmt.I2, Fmt.I2)
  | 6 => Option.some (Fmt.I4, Fmt.I4)
  | 7 => Option.some (Fmt.R4, Fmt.R4)
  | 8 => Option.some (Fmt.R8, Fmt.R8)
  | 10 => Option.some (Fmt.Cn, Fmt.Cn)
  | 11 => Option.some (Fmt.Bn, Fmt.Bn)
  | 12 => Option.some (Fmt.Dn, Fmt.Dn)
  | 13 => Option.some (Fmt.N1, Fmt.U1)
  | _ => Option.none

/-- The slot loop of readVn (IO.py): k slots left, current slot i, buffer
cursor oft, inpUsed counts the bytes the b0Pad branch reads from the parser
input stream (record.parser.inp.read(1)) rather than from the buffer; a pad
slot also advances the buffer cursor one extra byte past its tag byte
(args[1]+1 where args[1] is the offset already past the tag) and leaves the
field-map hole at i+1 as None. -/
def readVnGo (buf : List Nat) :
    Nat → Nat → Nat → List (Option (String × Fmt)) → List Val → Nat →
    Except String (List (Option (String × Fmt)) × List Val × Nat × Nat)
  | 0, _, oft, fm, vn, used => Except.ok (fm, vn, oft, used)
  | k + 1, i, oft, fm, vn, used =>
      match readFmt Fmt.B1 buf oft with
      | Option.none => Except.error "struct.error"
      | Option.some (tagv, oft1) =>
          match tagv with
          | Val.num tag =>
              match vnReadEntry tag.toNat with
              | Option.none => readVnGo buf k (i + 1) (oft1 + 1) fm vn (used + 1)
              | Option.some (rec, rdr) =>
                  match readFmt rdr buf oft1 with
                  | Option.none => Except.error "struct.error"
                  | Option.some (v, oft2) =>
                      readVnGo buf k (i + 1) oft2
                        (fm.set (i + 1)
                          (Option.some (GEN_DATA ++ "_" ++ toString i, rec)))
                        (vn.set (i + 1) v) used
          | _ => Except.error "TypeError"

/-- readVn (IO.py): FLD_CNT is a U2 at offset 0; the field map is rebuilt
as FLD_CNT followed by one GEN_DATA_ slot per loop index, then installed
with setFieldMap, which iterates the entries and subscripts each one - a
None hole left by a pad slot makes it raise TypeError. -/
def readVn (buf : List Nat) :
    Except String (List (String × Fmt) × List Val × Nat × Nat) :=
  match readFmt Fmt.U2 buf 0 with
  | Option.none => Except.error "struct.error"
  | Option.some (Val.num vlnI, oft0) =>
      let vln := vlnI.toNat
      let fm0 : List (Option (String × Fmt)) :=
        Option.some ("FLD_CNT", Fmt.U2) :: List.replicate vln Option.none
      let vn0 : List Val := List.replicate (vln + 1) (Val.num vlnI)
      match readVnGo buf vln 0 oft0 fm0 vn0 0 with
      | Except.error e => Except.error e
      | Except.ok (fm, vn, oft, used) =>
          if fm.all Option.isSome then
            Except.ok (fm.filterMap id, vn, oft, used)
          else Except.error "TypeError: NoneType in field map"
  | Option.some _ => Except.error "TypeError"

/-- The Far field map (V4.py): CPU_TYPE and STDF_VER, both required U1. -/
def farFields : List Field :=
  [⟨"CPU_TYPE", Fmt.U1, Missing.required, Option.none, 0⟩,
   ⟨"STDF_VER", Fmt.U1, Missing.required, Option.none, 0⟩]

/-- The Prr field map (V4.py). -/
def prrFields : List Field :=
  [⟨"HEAD_NUM", Fmt.U1, Missing.required, Option.none, 0⟩,
   ⟨"SITE_NUM", Fmt.U1, Missing.required, Option.none, 0⟩,
   ⟨"PART_FLG", Fmt.B1, Missing.required, Option.none, 0⟩,
   ⟨"NUM_TEST", Fmt.U2, Missing.required, Option.none, 0⟩,
   ⟨"HARD_BIN", Fmt.U2, Missing.required, Option.none, 0⟩,
   ⟨"SOFT_BIN", Fmt.U2, Missing.lit (Val.num 65535), Option.none, 0⟩,
   ⟨"X_COORD", Fmt.I2, Missing.lit (Val.num (-32768)), Option.none, 0⟩,
   ⟨"Y_COORD", Fmt.I2, Missing.lit (Val.num (-32768)), Option.none, 0⟩,
   ⟨"TEST_T", Fmt.U4, Missing.lit (Val.num 0), Option.none, 0⟩,
   ⟨"PART_ID", Fmt.Cn, Missing.lit (Val.str []), Option.none, 0⟩,
   ⟨"PART_TXT", Fmt.Cn, Missing.lit (Val.str []), Option.none, 0⟩,
   ⟨"PART_FIX", Fmt.Bn, Missing.lit (Val.list []), Option.none, 0⟩]

/-- The Ptr field map (V4.py); the masks are the source's B-constants:
B1 = 0xfd, B0 = 0xfe, B4 and B6 = 0xaf, B5 and B7 = 0x5f, B2 = 0xfb,
B3 = 0xf7, BN = 0xff. -/
def ptrFields : List Field :=
  [⟨"TEST_NUM", Fmt.U4, Missing.required, Option.none, 0⟩,
   ⟨"HEAD_NUM", Fmt.U1, Missing.required, Option.none, 0⟩,
   ⟨"SITE_NUM", Fmt.U1, Missing.required, Option.none, 0⟩,
   ⟨"TEST_FLG", Fmt.B1, Missing.lit (Val.num 255), Option.none, 0⟩,
   ⟨"PARM_FLG", Fmt.B1, Missing.required, Option.none, 0⟩,
   ⟨"RESULT", Fmt.R4, Missing.flag "TEST_FLG" 253, Option.none, 0⟩,
   ⟨"TEST_TXT", Fmt.Cn, Missing.lit (Val.str []), Option.none, 0⟩,
   ⟨"ALARM_ID", Fmt.Cn, Missing.lit (Val.str []), Option.none, 0⟩,
   ⟨"OPT_FLAG", Fmt.B1, Missing.lit (Val.num 255), Option.none, 0⟩,
   ⟨"RES_SCAL", Fmt.I1, Missing.flag "OPT_FLAG" 254, Option.none, 0⟩,
   ⟨"LLM_SCAL", Fmt.I1, Missing.flag "OPT_FLAG" 175, Option.none, 0⟩,
   ⟨"HLM_SCAL", Fmt.I1, Missing.flag "OPT_FLAG" 95, Option.none, 0⟩,
   ⟨"LO_LIMIT", Fmt.R4, Missing.flag "OPT_FLAG" 175, Option.none, 0⟩,
   ⟨"HI_LIMIT", Fmt.R4, Missing.flag "OPT_FLAG" 95, Option.none, 0⟩,
   ⟨"UNITS", Fmt.Cn, Missing.lit (Val.str []), Option.none, 0⟩,
   ⟨"C_RESFMT", Fmt.Cn, Missing.lit (Val.str []), Option.none, 0⟩,
   ⟨"C_LLMFMT", Fmt.Cn, Missing.lit (Val.str []), Option.none, 0⟩,
   ⟨"C_HLMFMT", Fmt.Cn, Missing.lit (Val.str []), Option.none, 0⟩,
   ⟨"LO_SPEC", Fmt.R4, Missing.flag "OPT_FLAG" 251, Option.none, 0⟩,
   ⟨"HI_SPEC", Fmt.R4, Missing.flag "OPT_FLAG" 247, Option.none, 0⟩]

/-- A PTR record with OPT_FLAG present (value 0) and all optional gated
fields missing; float-valued slots are None so nothing ever packs a float. -/
def ptrValues : List Val :=
  [Val.num 1, Val.num 1, Val.num 1, Val.num 0, Val.num 0, Val.none,
   Val.str [], Val.str [], Val.num 0, Val.none, Val.none, Val.none,
   Val.none, Val.none, Val.str [], Val.str [], Val.str [], Val.str [],
   Val.none, Val.none]

/-- The byte slots encodeRecord actually produces for ptrValues. -/
def ptrPd : List (List Nat) :=
  [[1, 0, 0, 0], [1], [1], [2], [0], [2], [0], [0], [253], [1], [81],
   [241], [241], [241], [0], [0], [0], [0], [245], [253]]

/-- The Mpr field map (V4.py): RTN_STAT is k5N1 and RTN_INDX is k5U2, both
sized by field 5 (RTN_ICNT); RTN_RSLT is k6R4 sized by field 6 (RSLT_CNT).
The masks are the source's constants (B4 or B6 and B5 or B7 are 0xff). -/
def mprFields : List Field :=
  [⟨"TEST_NUM", Fmt.U4, Missing.required, Option.none, 0⟩,
   ⟨"HEAD_NUM", Fmt.U1, Missing.required, Option.none, 0⟩,
   ⟨"SITE_NUM", Fmt.U1, Missing.required, Option.none, 0⟩,
   ⟨"TEST_FLG", Fmt.B1, Missing.required, Option.none, 0⟩,
   ⟨"PARM_FLG", Fmt.B1, Missing.required, Option.none, 0⟩,
   ⟨"RTN_ICNT", Fmt.U2, Missing.lit (Val.num 0), Option.none, 0⟩,
   ⟨"RSLT_CNT", Fmt.U2, Missing.lit (Val.num 0), Option.none, 0⟩,
   ⟨"RTN_STAT", Fmt.N1, Missing.lit (Val.list []), Option.some Fmt.N1, 5⟩,
   ⟨"RTN_RSLT", Fmt.R4, Missing.lit (Val.list []), Option.some Fmt.R4, 6⟩,
   ⟨"TEST_TXT", Fmt.Cn, Missing.lit (Val.str []), Option.none, 0⟩,
   ⟨"ALARM_ID", Fmt.Cn, Missing.lit (Val.str []), Option.none, 0⟩,
   ⟨"OPT_FLAG", Fmt.B1, Missing.lit (Val.num 255), Option.none, 0⟩,
   ⟨"RES_SCAL", Fmt.I1, Missing.flag "OPT_FLAG" 254, Option.none, 0⟩,
   ⟨"LLM_SCAL", Fmt.I1, Missing.flag "OPT_FLAG" 255, Option.none, 0⟩,
   ⟨"HLM_SCAL", Fmt.I1, Missing.flag "OPT_FLAG" 255, Option.none, 0⟩,
   ⟨"LO_LIMIT", Fmt.R4, Missing.flag "OPT_FLAG" 255, Option.none, 0⟩,
   ⟨"HI_LIMIT", Fmt.R4, Missing.flag "OPT_FLAG" 255, Option.none, 0⟩,
   ⟨"START_IN", Fmt.R4, Missing.flag "OPT_FLAG" 253, Option.none, 0⟩,
   ⟨"INCR_IN", Fmt.R4, Missing.flag "OPT_FLAG" 253, Option.none, 0⟩,
   ⟨"RTN_INDX", Fmt.U2, Missing.lit (Val.str []), Option.some Fmt.U2, 5⟩,
   ⟨"UNITS", Fmt.Cn, Missing.lit (Val.str []), Option.none, 0⟩,
   ⟨"UNITS_IN", Fmt.Cn, Missing.lit (Val.str []), Option.none, 0⟩,
   ⟨"C_RESFMT", Fmt.Cn, Missing.lit (Val.str []), Option.none, 0⟩,
   ⟨"C_LLMFMT", Fmt.Cn, Missing.lit (Val.str []), Option.none, 0⟩,
   ⟨"C_HLMFMT", Fmt.Cn, Missing.lit (Val.str []), Option.none, 0⟩,
   ⟨"LO_SPEC", Fmt.R4, Missing.flag "OPT_FLAG" 251, Option.none, 0⟩,
   ⟨"HI_SPEC", Fmt.R4, Missing.flag "OPT_FLAG" 247, Option.none, 0⟩]

/-- An in-memory MPR whose two arrays sharing count field 5 disagree:
RTN_STAT holds two nibbles while RTN_INDX holds one index. -/
def mprValues : List Val :=
  [Val.num 1, Val.num 1, Val.num 1, Val.num 0, Val.num 0, Val.num 2, Val.num 0,
   Val.list [Val.num 1, Val.num 2], Val.list [], Val.str [], Val.str [],
   Val.num 0, Val.num 0, Val.num 0, Val.num 0, Val.none, Val.none,
   Val.none, Val.none, Val.list [Val.num 7], Val.str [], Val.str [],
   Val.str [], Val.str [], Val.str [], Val.none, Val.none]

/-- The byte slots encodeRecord actually produces for mprValues. -/
def mprPd : List (List Nat) :=
  [[1, 0, 0, 0], [1], [1], [0], [0], [1, 0], [0, 0], [33], [], [0], [0],
   [14], [0], [0], [0], [0], [0], [2], [2], [7, 0], [0], [0], [0], [0],
   [0], [6], [14]]

/-- A one-entry registry holding Far, for the unknown-record scenario. -/
def demoReg : List ((Nat × Nat) × Schema) := [((0, 10), ⟨"Far", farFields⟩)]

/-- A buffer is a complete conforming encoding of a scalar/variable field
list from offset oft when every field reads successfully in sequence (so no
arrays, no GEN_DATA_ re-dispatch, no float or nibble tags), every Dn bit
count is byte aligned (whole-byte counts are the only ones the byte-granular
re-encode reproduces verbatim), and the walk ends exactly at the end of the
buffer. -/
def conformingFrom (buf : List Nat) : List Field → Nat → Bool
  | [], oft => oft == buf.length
  | f :: rest, oft =>
      f.arrayFmt == Option.none &&
      !f.name.startsWith GEN_DATA &&
      (match readFmt f.fmt buf oft with
       | Option.none => false
       | Option.some (_, oft') =>
           (if f.fmt = Fmt.Dn then bytesToNatLE ((buf.drop oft).take 2) % 8 == 0
            else true) &&
           conformingFrom buf rest oft')

/-- Sequentially overwrite the entries of a list starting at index i. -/
def overwriteSeq : List α → Nat → List α → List α
  | l, _, [] => l
  | l, i, a :: as => overwriteSeq (l.set i a) (i + 1) as

/-- A three-field schema with one sized array, used to instantiate the
array-count theorems on concrete data. -/
def cntFields : List Field :=
  [⟨"CNT", Fmt.U1, Missing.lit (Val.num 0), Option.none, 0⟩,
   ⟨"ARR", Fmt.U1, Missing.lit (Val.list []), Option.some Fmt.U1, 0⟩,
   ⟨"TAIL", Fmt.U1, Missing.lit (Val.num 0), Option.none, 0⟩]

/-! Byte-level lemmas shared by the round-trip development. -/

theorem natToBytesLE_length (w v : Nat) : (natToBytesLE w v).length = w := by
  induction w generalizing v with
  | zero => rfl
  | succ w ih => simp [natToBytesLE, ih]

theorem natToBytesLE_bytesToNatLE (bs : List Nat) (h : ∀ b ∈ bs, b < 256) :
    natToBytesLE bs.length (bytesToNatLE bs) = bs := by
  induction bs with
  | nil => rfl
  | cons b bs ih =>
    have hb : b < 256 := h b (List.mem_cons_self b bs)
    have hbs : ∀ x ∈ bs, x < 256 := fun x hx => h x (List.mem_cons_of_mem b hx)
    simp only [List.length_cons, natToBytesLE, bytesToNatLE, List.cons.injEq]
    refine ⟨by omega, ?_⟩
    have : (b + 256 * bytesToNatLE bs) / 256 = bytesToNatLE bs := by omega
    rw [this, ih hbs]

theorem bytesToNatLE_lt (bs : List Nat) (h : ∀ b ∈ bs, b < 256) :
    bytesToNatLE bs < 256 ^ bs.length := by
  induction bs with
  | nil => simp [bytesToNatLE]
  | cons b bs ih =>
    have hb : b < 256 := h b (List.mem_cons_self b bs)
    have hbs := ih (fun x hx => h x (List.mem_cons_of_mem b hx))
    simp only [bytesToNatLE, List.length_cons, pow_succ]
    calc b + 256 * bytesToNatLE bs < 256 + 256 * bytesToNatLE bs := by omega
    _ = 256 * (1 + bytesToNatLE bs) := by ring
    _ ≤ 256 * 256 ^ bs.length := by
        have : 1 + bytesToNatLE bs ≤ 256 ^ bs.length := by omega
        exact Nat.mul_le_mul_left _ this
    _ = 256 ^ bs.length * 256 := by ring

theorem slice_split (l : List α) (o a b : Nat) :
    (l.drop o).take (a + b) = (l.drop o).take a ++ (l.drop (o + a)).take b := by
  rw [List.take_add, List.drop_drop, Nat.add_comm]

/-! Claim C6 - endian detection. -/

/-- C6: detectEndian selects little-endian exactly when the CPU-code byte
(the fifth byte of the stream) equals 2 and big-endian otherwise, and it
returns the cursor to the position held before the call, whenever the
initial-sequence check passes (which, as coded, it does whenever the type
byte is 0 or the subtype byte is 10). -/
theorem detectEndian_selects_and_restores (stream : List Nat) (pos : Nat)
    (h5 : 5 ≤ stream.length)
    (hfar : stream.getD 2 0 = 0 ∨ stream.getD 3 0 = 10) :
    detectEndian stream pos =
      Except.ok
        ((if stream.getD 4 0 = 2 then Endian.little else Endian.big), pos) := by
  have hcond : ¬(stream.getD 2 0 ≠ 0 ∧ stream.getD 3 0 ≠ 10) := by
    rintro ⟨h2, h3⟩
    rcases hfar with h | h
    · exact h2 h
    · exact h3 h
  unfold detectEndian
  rw [if_pos h5, if_neg hcond]

/-- Witness for C6 at a concrete little-endian FAR header with cursor 7. -/
theorem detectEndian_selects_and_restores_witness :
    detectEndian [2, 0, 0, 10, 2] 7 = Except.ok (Endian.little, 7) := by
  have h := detectEndian_selects_and_restores [2, 0, 0, 10, 2] 7 (by decide)
    (by decide)
  rw [h]
  rfl

/-! Claim C7 - the initial-sequence check. -/

/-- C7: the initial-sequence check, as coded, raises only when the type
byte differs from 0 AND the subtype byte differs from 10: a first record
with header type 0 subtype 20 (an ATR, not a FAR), or type 5 subtype 10,
is accepted without an InitialSequence error, although its (type, subtype)
is not (0, 10); the error is raised only when both bytes deviate. -/
theorem detectEndian_accepts_non_far_first_record :
    detectEndian [6, 0, 0, 20, 2] 0 = Except.ok (Endian.little, 0) ∧
    detectEndian [6, 0, 5, 10, 2] 0 = Except.ok (Endian.little, 0) ∧
    detectEndian [6, 0, 5, 20, 2] 0 = Except.error "InitialSequenceException" := by
  decide

/-! Claim C9 - the part summarizer counters. -/

/-- C9: onPrr evaluated at the failing inputs: PART_FLG = 0x04 (bit 2 set,
part aborted) does NOT increment the abort count, while PART_FLG = 0
(bit 2 clear, normal completion) DOES; the good count does follow bit 3 as
claimed, and there is no separate fail counter (fail is part minus good). -/
theorem onPrr_counts_at_flag_values :
    onPrr 4 ⟨0, 0, 0⟩ = ⟨1, 1, 0⟩ ∧
    onPrr 0 ⟨0, 0, 0⟩ = ⟨1, 1, 1⟩ ∧
    onPrr 8 ⟨0, 0, 0⟩ = ⟨1, 0, 1⟩ ∧
    onPrr 12 ⟨0, 0, 0⟩ = ⟨1, 0, 0⟩ := by decide

/-! Claim C10 - the lazy-buffer shortcut. -/

theorem foldl_pyOr_truthy (vs : List Val) (v : Val) (h : pyTruthy v = true) :
    vs.foldl pyOr v = v := by
  induction vs generalizing v with
  | nil => rfl
  | cons w ws ih =>
      have h1 : pyOr v w = v := by simp [pyOr, h]
      simp only [List.foldl_cons, h1]
      exact ih v h

theorem foldl_pyOr_none_iff (vs : List Val) (v : Val) :
    vs.foldl pyOr v = Val.none ↔
      pyTruthy v = false ∧ (∀ x ∈ vs, pyTruthy x = false) ∧
        (v :: vs).getLast? = Option.some Val.none := by
  induction vs generalizing v with
  | nil =>
      simp only [List.foldl_nil, List.not_mem_nil, false_implies, implies_true,
        true_and, List.getLast?_singleton, Option.some.injEq]
      constructor
      · rintro rfl
        exact ⟨rfl, rfl⟩
      · rintro ⟨-, h⟩
        exact h
  | cons w ws ih =>
      by_cases hv : pyTruthy v = true
      · have hLHS : (w :: ws).foldl pyOr v = v := by
          have h1 : pyOr v w = v := by simp [pyOr, hv]
          simp only [List.foldl_cons, h1]
          exact foldl_pyOr_truthy ws v hv
        rw [hLHS]
        constructor
        · rintro rfl
          exact absurd hv (by decide)
        · rintro ⟨h0, -, -⟩
          rw [hv] at h0
          cases h0
      · have hvf : pyTruthy v = false := by
          cases hpv : pyTruthy v
          · rfl
          · exact absurd hpv hv
        have h1 : pyOr v w = w := by simp [pyOr, hvf]
        simp only [List.foldl_cons, h1, ih w, List.getLast?_cons_cons]
        constructor
        · rintro ⟨hw, hws, hlast⟩
          refine ⟨hvf, ?_, hlast⟩
          intro x hx
          rcases List.mem_cons.mp hx with rfl | hx
          · exact hw
          · exact hws x hx
        · rintro ⟨-, hall, hlast⟩
          exact ⟨hall w (by simp), fun x hx => hall x (by simp [hx]), hlast⟩

theorem reduceOr_some_none_iff (values : List Val) :
    reduceOr values = Option.some Val.none ↔
      values ≠ [] ∧ (∀ v ∈ values, pyTruthy v = false) ∧
        values.getLast? = Option.some Val.none := by
  cases values with
  | nil => simp [reduceOr]
  | cons v vs =>
      simp only [reduceOr, Option.some.injEq, foldl_pyOr_none_iff, ne_eq,
        List.cons_ne_nil, not_false_iff, true_and, List.mem_cons]
      constructor
      · rintro ⟨h1, h2, h3⟩
        refine ⟨?_, h3⟩
        rintro x (rfl | hx)
        · exact h1
        · exact h2 x hx
      · rintro ⟨hall, h3⟩
        exact ⟨hall v (Or.inl rfl), fun x hx => hall x (Or.inr hx), h3⟩

/-- C10 (amended): encodeRecord returns the stored raw buffer verbatim iff
the buffer is non-empty and the or-reduction of the value vector is None -
equivalently, iff every value is falsy AND the final value is None.
All-falsy alone (for instance an all-zero decoded vector, whose reduction
is 0) does not trigger the shortcut. -/
theorem encode_shortcut_iff (fields : List Field) (buffer : List Nat)
    (values : List Val) :
    encodeRecord fields buffer values = Except.ok (Sum.inl buffer) ↔
      buffer ≠ [] ∧ values ≠ [] ∧ (∀ v ∈ values, pyTruthy v = false) ∧
        values.getLast? = Option.some Val.none := by
  have hchar := reduceOr_some_none_iff values
  unfold encodeRecord
  split_ifs with h1 h2
  · constructor
    · intro h
      cases h
    · rintro ⟨hb, hrest⟩
      have := hchar.mpr hrest
      rw [h1.2] at this
      cases this
  · constructor
    · intro _
      exact ⟨h2.1, hchar.mp h2.2⟩
    · intro _
      rfl
  · constructor
    · intro h
      rcases henc : encodeGo fields fields 0 values (List.replicate fields.length [])
        with e | ⟨v, pd⟩ <;> rw [henc] at h <;> cases h
    · rintro ⟨hb, hrest⟩
      exact absurd ⟨hb, hchar.mpr hrest⟩ h2

/-- C10 counterexample: a FAR legitimately decoded to the all-zero value
vector has a non-empty buffer and only falsy values, yet encodeRecord does
not return the stored buffer: the or-reduction is 0, not None, so the
claimed all-falsy trigger does not fire. -/
theorem encode_shortcut_not_all_falsy :
    (decodeValues farFields [0, 0]).vals = [Val.num 0, Val.num 0] ∧
    ([0, 0] : List Nat) ≠ [] ∧
    (∀ v ∈ [Val.num 0, Val.num 0], pyTruthy v = false) ∧
    encodeRecord farFields [0, 0] [Val.num 0, Val.num 0] ≠
      Except.ok (Sum.inl [0, 0]) := by decide

/-! Claim C4 - unknown record kinds. -/

/-- C4 counterexample: on the stream FAR, unknown (99, 99) of length 3,
FAR, the parser consumes the unknown payload and decodes the next record
normally, but the sinks receive only the two FAR records - no UnknownRecord
placeholder carrying (99, 99) is delivered, because the registry-miss
branch sends nothing. -/
theorem parse_unknown_emits_no_placeholder :
    parseRecords demoReg
        ([2, 0, 0, 10, 2, 4] ++ [3, 0, 99, 99, 7, 8, 9] ++ [2, 0, 0, 10, 2, 4]) =
      [⟨"Far", 0, 10, [Val.num 2, Val.num 4], [2, 4]⟩,
       ⟨"Far", 0, 10, [Val.num 2, Val.num 4], [2, 4]⟩] ∧
    ∀ e ∈ parseRecords demoReg
        ([2, 0, 0, 10, 2, 4] ++ [3, 0, 99, 99, 7, 8, 9] ++ [2, 0, 0, 10, 2, 4]),
      (e.typ, e.sub) ≠ (99, 99) := by decide

/-- C4 (amended): on a header whose (type, subtype) is not in the registry,
one parse iteration consumes exactly the four header bytes plus length
payload bytes, sends nothing to the sinks, and continues on the remaining
stream, where the next record is processed normally. -/
theorem parse_skips_unknown (reg : List ((Nat × Nat) × Schema))
    (fuel t s : Nat) (payload rest : List Nat) (acc : List Emitted)
    (hreg : lookupReg reg t s = Option.none) :
    parseGo reg (fuel + 1)
      (payload.length % 256 :: payload.length / 256 :: t :: s ::
        (payload ++ rest)) acc =
      parseGo reg fuel rest acc := by
  have h4 : 4 ≤ (payload.length % 256 :: payload.length / 256 :: t :: s ::
      (payload ++ rest)).length := by
    simp only [List.length_cons]
    omega
  rw [parseGo]
  rw [if_pos h4]
  simp only [List.getD_cons_zero, List.getD_cons_succ, List.drop_succ_cons,
    List.drop_zero, hreg]
  have hlen : payload.length % 256 + 256 * (payload.length / 256) =
      payload.length := by omega
  rw [hlen, List.drop_left]

/-- Witness for C4 at a concrete unregistered (99, 99) header of length 3. -/
theorem parse_skips_unknown_witness :
    parseGo demoReg 1
      ([7, 8, 9].length % 256 :: [7, 8, 9].length / 256 :: 99 :: 99 ::
        ([7, 8, 9] ++ [2, 0, 0, 10, 2, 4])) [] =
      parseGo demoReg 0 [2, 0, 0, 10, 2, 4] [] :=
  parse_skips_unknown demoReg 0 99 99 [7, 8, 9] [2, 0, 0, 10, 2, 4] []
    (by decide)

/-! Claim C5 - the GDR pad field. -/

/-- C5: readVn evaluated on the GDR payload documented in the source's own
docstring (FLD_CNT 4: "AB", 255, one pad byte, then the I2 value 510): the
pad slot consumes a loop index and an extra buffer byte past its tag
(throwing the cursor off the next tag, which is then also read as a pad and
a stray byte is read from the parser input each time), and it leaves None
holes in the rebuilt field map, so installing the map crashes instead of
yielding the documented value vector; the claim's FLD_CNT 3 variant crashes
identically, so no pad-carrying GDR decodes or round-trips. -/
theorem readVn_pad_slot_crashes :
    readVn [4, 0, 10, 2, 65, 66, 1, 255, 0, 5, 254, 1] =
      Except.error "TypeError: NoneType in field map" ∧
    readVn [3, 0, 10, 2, 65, 66, 1, 255, 0, 5, 254, 1] =
      Except.error "TypeError: NoneType in field map" := by decide

/-! Claim C2 - flag-gated missing fields on encode. -/

/-- C2: encodeRecord on a PTR with OPT_FLAG present and the gated fields
missing: the mask bits are set in the flag value (missing xor mask under
the inverted-mask convention) and the flag field's already-emitted slot is
re-packed (slot 8 ends as 253 = 0xfd), but the missing field's own output
slot receives a copy of the re-packed flag byte instead of the field's
default bytes: RES_SCAL (slot 9, an I1 whose default -128 packs to [128])
is emitted as [1], the OPT_FLAG byte at the moment it was processed. -/
theorem encode_flag_missing_writes_flag_bytes :
    encodeRecord ptrFields [] ptrValues = Except.ok (Sum.inr ptrPd) ∧
    ptrPd.getD 8 [] = [253] ∧
    ptrPd.getD 9 [] = [1] ∧
    packFmt Fmt.I1 (defaultDataMap Fmt.I1) = Option.some [128] ∧
    ptrPd.getD 9 [] ≠ [128] := by decide

/-! Claim C1 - the binary round-trip. -/

/-- C1 counterexample: the PRR payload [1,1,0,2,0,5,0] is a conforming
trailing-optional truncation (the first five fields fill the buffer
exactly); decoding completes, but re-encoding the record with exactly the
decoded value vector emits bytes for the truncated fields' sentinels, so
the joined output is 20 bytes, not the 7-byte source buffer. -/
theorem roundtrip_truncated_prr_fails :
    (decodeValues prrFields [1, 1, 0, 2, 0, 5, 0]).status = DecStatus.complete ∧
    (encodeRecord prrFields [1, 1, 0, 2, 0, 5, 0]
        (decodeValues prrFields [1, 1, 0, 2, 0, 5, 0]).vals).map joinEncoded ≠
      Except.ok [1, 1, 0, 2, 0, 5, 0] := by decide

/-! Claim C3 - trailing-optional truncation. -/

theorem decodeGo_append_complete (buf : List Nat) (l₁ l₂ : List Field) :
    ∀ (i : Nat) (vals : List Val) (oft : Nat),
    (decodeGo buf l₁ i vals oft).status = DecStatus.complete →
    (decodeGo buf l₁ i vals oft).truncated = false →
    decodeGo buf (l₁ ++ l₂) i vals oft =
      decodeGo buf l₂ (i + l₁.length) (decodeGo buf l₁ i vals oft).vals
        (decodeGo buf l₁ i vals oft).oft := by
  induction l₁ with
  | nil =>
      intro i vals oft _ _
      simp [decodeGo]
  | cons f fs ih =>
      intro i vals oft hst htr
      by_cases h : oft ≥ buf.length
      · exfalso
        have heq : (decodeGo buf (f :: fs) i vals oft).truncated = true := by
          simp only [decodeGo, if_pos h]
        rw [htr] at heq
        cases heq
      · rcases harr : f.arrayFmt with _ | ef
        · rcases hr : readFmt f.fmt buf oft with _ | ⟨v, oft'⟩
          · have heq : decodeGo buf (f :: fs) i vals oft =
                ⟨vals, oft, DecStatus.stopped, false⟩ := by
              simp only [decodeGo, if_neg h, harr, hr]
            rw [heq] at hst
            cases hst
          · have heq1 : decodeGo buf (f :: fs) i vals oft =
                decodeGo buf fs (i + 1) (vals.set i v) oft' := by
              simp only [decodeGo, if_neg h, harr, hr]
            have heq2 : decodeGo buf ((f :: fs) ++ l₂) i vals oft =
                decodeGo buf (fs ++ l₂) (i + 1) (vals.set i v) oft' := by
              simp only [List.cons_append, decodeGo, if_neg h, harr, hr,
                List.append_eq]
            rw [heq1] at hst htr
            rw [heq2, heq1, ih (i + 1) _ oft' hst htr]
            congr 1
            simp only [List.length_cons]
            omega
        · rcases hc : valCount (vals.getD f.arrayNdx Val.none) with _ | cnt
          · have heq : decodeGo buf (f :: fs) i vals oft =
                ⟨vals, oft, DecStatus.crashed, false⟩ := by
              simp only [decodeGo, if_neg h, harr, hc]
            rw [heq] at hst
            cases hst
          · rcases hr : (if ef = Fmt.N1 then readNibbleArray buf oft cnt
                else (readArrayF buf ef cnt oft).map fun p => (p.1, p.2))
              with _ | ⟨vs, oft'⟩
            · have heq : decodeGo buf (f :: fs) i vals oft =
                  ⟨vals, oft, DecStatus.stopped, false⟩ := by
                simp only [decodeGo, if_neg h, harr, hc, hr]
              rw [heq] at hst
              cases hst
            · have heq1 : decodeGo buf (f :: fs) i vals oft =
                  decodeGo buf fs (i + 1) (vals.set i (Val.list vs)) oft' := by
                simp only [decodeGo, if_neg h, harr, hc, hr]
              have heq2 : decodeGo buf ((f :: fs) ++ l₂) i vals oft =
                  decodeGo buf (fs ++ l₂) (i + 1) (vals.set i (Val.list vs)) oft' := by
                simp only [List.cons_append, decodeGo, if_neg h, harr, hc, hr,
                  List.append_eq]
              rw [heq1] at hst htr
              rw [heq2, heq1, ih (i + 1) _ oft' hst htr]
              congr 1
              simp only [List.length_cons]
              omega

theorem decodeGo_past_end (buf : List Nat) (l : List Field) :
    ∀ (i : Nat) (vals : List Val) (oft : Nat), oft ≥ buf.length →
    decodeGo buf l i vals oft =
      ⟨overwriteSeq vals i (l.map fun f => missingVal f.missing), oft,
        DecStatus.complete, !l.isEmpty⟩ := by
  induction l with
  | nil =>
      intro i vals oft _
      simp [decodeGo, overwriteSeq]
  | cons f fs ih =>
      intro i vals oft h
      simp only [decodeGo, if_pos h, List.map_cons, List.isEmpty_cons]
      rw [ih (i + 1) (vals.set i (missingVal f.missing)) oft h]
      rfl

/-- C3: trailing-optional truncation: when the buffer is exactly filled by
the first (pre) fields of the schema and more (post) fields remain, the
decoder assigns every remaining field - whose start offset is then at or
past the end of the buffer - that field's missing sentinel, completes with
no error propagated (status complete), and leaves the earlier fully-read
fields exactly as the prefix run decoded them. -/
theorem decode_trailing_truncation (pre post : List Field) (buf : List Nat)
    (r₀ : DecRes)
    (hrun : decodeGo buf pre 0
        (List.replicate (pre.length + post.length) Val.none) 0 = r₀)
    (hst : r₀.status = DecStatus.complete)
    (htr : r₀.truncated = false)
    (hoft : r₀.oft = buf.length)
    (hpost : post ≠ []) :
    decodeValues (pre ++ post) buf =
      ⟨overwriteSeq r₀.vals pre.length (post.map fun f => missingVal f.missing),
        buf.length, DecStatus.complete, true⟩ := by
  unfold decodeValues
  have hlen : (pre ++ post).length = pre.length + post.length :=
    List.length_append _ _
  rw [hlen]
  rw [decodeGo_append_complete buf pre post 0 _ 0
      (by rw [hrun]; exact hst) (by rw [hrun]; exact htr)]
  rw [hrun, hoft]
  rw [decodeGo_past_end buf post (0 + pre.length) r₀.vals buf.length
      (le_refl _)]
  have hne : post.isEmpty = false := by
    cases post with
    | nil => exact absurd rfl hpost
    | cons a as => rfl
  rw [hne]
  simp

/-- Witness for C3: the 7-byte PRR payload filling exactly the first five
fields; the remaining seven fields decode to their sentinels. -/
theorem decode_trailing_truncation_witness :
    decodeValues (prrFields.take 5 ++ prrFields.drop 5) [1, 1, 0, 2, 0, 5, 0] =
      ⟨overwriteSeq
          [Val.num 1, Val.num 1, Val.num 0, Val.num 2, Val.num 5, Val.none,
            Val.none, Val.none, Val.none, Val.none, Val.none, Val.none] 5
          ((prrFields.drop 5).map fun f => missingVal f.missing),
        7, DecStatus.complete, true⟩ :=
  decode_trailing_truncation (prrFields.take 5) (prrFields.drop 5)
    [1, 1, 0, 2, 0, 5, 0]
    ⟨[Val.num 1, Val.num 1, Val.num 0, Val.num 2, Val.num 5, Val.none,
        Val.none, Val.none, Val.none, Val.none, Val.none, Val.none],
      7, DecStatus.complete, false⟩
    (by decide) (by decide) (by decide) (by decide) (by decide)

/-! Helper lemmas for the round-trip theorem (an amended C1). -/

theorem getD_set_ne (l : List α) (i j : Nat) (a : α) (d : α) (h : i ≠ j) :
    (l.set i a).getD j d = l.getD j d := by
  simp [List.getD, List.getElem?_set_ne h]

theorem getD_set_self (l : List α) (i : Nat) (a : α) (d : α) (h : i < l.length) :
    (l.set i a).getD i d = a := by
  simp [List.getD, List.getElem?_set_self h]

theorem readBytes_spec (buf : List Nat) (oft w : Nat) (bs : List Nat)
    (hb : ∀ b ∈ buf, b < 256) (h : readBytes buf oft w = Option.some bs) :
    bs = (buf.drop oft).take w ∧ bs.length = w ∧ oft + w ≤ buf.length ∧
    ∀ b ∈ bs, b < 256 := by
  unfold readBytes at h
  split_ifs at h with hle
  · cases h
    refine ⟨rfl, ?_, hle, ?_⟩
    · rw [List.length_take, List.length_drop]
      omega
    · intro b hbm
      exact hb b (List.drop_subset _ _ (List.take_subset _ _ hbm))

theorem toSigned_spec (w : Nat) (hw : 0 < w) (u : Nat) (hu : u < 2 ^ (8 * w)) :
    -(2 ^ (8 * w - 1) : Int) ≤ toSigned w u ∧ toSigned w u < 2 ^ (8 * w - 1) ∧
    (toSigned w u % (2 ^ (8 * w) : Int)).toNat = u := by
  have hhalf : (2 : Int) ^ (8 * w) = 2 * 2 ^ (8 * w - 1) := by
    have h1 : (2 : Int) ^ (8 * w - 1 + 1) = 2 ^ (8 * w - 1) * 2 :=
      pow_succ 2 (8 * w - 1)
    have h2 : 8 * w - 1 + 1 = 8 * w := by omega
    rw [h2] at h1
    rw [h1]
    ring
  have hupos : (0 : Int) ≤ (u : Int) := Int.natCast_nonneg u
  have huI : (u : Int) < 2 ^ (8 * w) := by exact_mod_cast hu
  have hmod : (u : Int) % (2 ^ (8 * w) : Int) = u :=
    Int.emod_eq_of_lt hupos huI
  unfold toSigned
  split_ifs with hcase
  · have hcI : (u : Int) < 2 ^ (8 * w - 1) := by exact_mod_cast hcase
    have hneg : -(2 ^ (8 * w - 1) : Int) ≤ 0 := neg_nonpos.mpr (by positivity)
    refine ⟨le_trans hneg hupos, hcI, ?_⟩
    rw [hmod]
    simp
  · push_neg at hcase
    have hcI : (2 : Int) ^ (8 * w - 1) ≤ (u : Int) := by exact_mod_cast hcase
    refine ⟨by omega, by omega, ?_⟩
    have h1 : ((u : Int) - 2 ^ (8 * w)) % (2 ^ (8 * w) : Int) =
        (u : Int) % (2 ^ (8 * w) : Int) := by
      have h2 : (u : Int) - 2 ^ (8 * w) = (u : Int) + 2 ^ (8 * w) * (-1) := by ring
      rw [h2, Int.add_mul_emod_self_left]
    rw [h1, hmod]
    simp

theorem readFmt_ne_none (fmt : Fmt) (buf : List Nat) (oft : Nat) (v : Val)
    (oft' : Nat) (h : readFmt fmt buf oft = Option.some (v, oft')) :
    v ≠ Val.none := by
  cases fmt
  case N1 => simp [readFmt] at h
  case R4 => simp [readFmt] at h
  case R8 => simp [readFmt] at h
  case Cn =>
    simp only [readFmt] at h
    split at h
    · cases h
    · split_ifs at h with hz
      · cases h
        simp
      · simp only [Option.map_eq_some'] at h
        obtain ⟨bs, -, hval⟩ := h
        cases hval
        simp
  case Bn =>
    simp only [readFmt] at h
    split at h
    · cases h
    · simp only [Option.map_eq_some'] at h
      obtain ⟨bs, -, hval⟩ := h
      cases hval
      simp
  case Dn =>
    simp only [readFmt] at h
    split at h
    · cases h
    · simp only [Option.map_eq_some'] at h
      obtain ⟨bs, -, hval⟩ := h
      cases hval
      simp
  all_goals
    simp only [readFmt, Option.map_eq_some'] at h
    obtain ⟨bs, -, hval⟩ := h
    cases hval
    simp

theorem overwriteSeq_eq (bs : List α) :
    ∀ (l : List α) (i : Nat), i + bs.length ≤ l.length →
    overwriteSeq l i bs = l.take i ++ bs ++ l.drop (i + bs.length) := by
  induction bs with
  | nil =>
      intro l i _
      simp [overwriteSeq]
  | cons a as ih =>
      intro l i h
      have hi : i < l.length := by
        simp only [List.length_cons] at h
        omega
      have h1 : (l.take i).length = i := by
        rw [List.length_take]
        omega
      have hset : l.set i a = l.take i ++ a :: l.drop (i + 1) := by
        rw [List.set_eq_take_append_cons_drop, if_pos hi]
      have hrec : overwriteSeq l i (a :: as) =
          overwriteSeq (l.set i a) (i + 1) as := rfl
      rw [hrec, ih (l.set i a) (i + 1)
        (by simp only [List.length_set, List.length_cons] at h ⊢; omega), hset]
      have htake : (l.take i ++ a :: l.drop (i + 1)).take (i + 1) =
          l.take i ++ [a] := by
        rw [List.take_append_eq_append_take, h1]
        have h2 : i + 1 - i = 1 := by omega
        rw [h2]
        have h3 : (l.take i).take (i + 1) = l.take i :=
          List.take_of_length_le (by rw [h1]; omega)
        rw [h3]
        rfl
      have hdrop : (l.take i ++ a :: l.drop (i + 1)).drop (i + 1 + as.length) =
          l.drop (i + (as.length + 1)) := by
        rw [List.drop_append_eq_append_drop, h1]
        have h2 : (l.take i).drop (i + 1 + as.length) = [] :=
          List.drop_eq_nil_of_le (by rw [h1]; omega)
        rw [h2]
        have h3 : i + 1 + as.length - i = as.length + 1 := by omega
        rw [h3]
        rw [List.drop_succ_cons, List.drop_drop]
        have h4 : i + 1 + as.length = i + (as.length + 1) := by omega
        rw [h4]
        simp
      rw [htake, hdrop]
      simp [List.append_assoc, List.length_cons]

theorem decodeGo_vals_shape (buf : List Nat) (l : List Field) :
    ∀ (i : Nat) (vals : List Val) (oft : Nat),
    (decodeGo buf l i vals oft).vals.length = vals.length ∧
    ∀ j, j < i → (decodeGo buf l i vals oft).vals.getD j Val.none =
      vals.getD j Val.none := by
  induction l with
  | nil =>
      intro i vals oft
      exact ⟨rfl, fun j _ => rfl⟩
  | cons f fs ih =>
      intro i vals oft
      have hstep : ∀ (x : Val) (oft' : Nat),
          (decodeGo buf fs (i + 1) (vals.set i x) oft').vals.length =
            vals.length ∧
          ∀ j, j < i →
            (decodeGo buf fs (i + 1) (vals.set i x) oft').vals.getD j Val.none =
              vals.getD j Val.none := by
        intro x oft'
        obtain ⟨ha, hb⟩ := ih (i + 1) (vals.set i x) oft'
        refine ⟨by rw [ha, List.length_set], ?_⟩
        intro j hj
        rw [hb j (by omega), getD_set_ne _ _ _ _ _ (by omega)]
      simp only [decodeGo]
      split
      · exact hstep _ _
      · split
        · split
          · exact ⟨rfl, fun j _ => rfl⟩
          · split
            · exact ⟨rfl, fun j _ => rfl⟩
            · exact hstep _ _
        · split
          · exact ⟨rfl, fun j _ => rfl⟩
          · exact hstep _ _

theorem pack_of_read (fmt : Fmt) (buf : List Nat) (oft : Nat) (v : Val)
    (oft' : Nat) (hb : ∀ b ∈ buf, b < 256)
    (hread : readFmt fmt buf oft = Option.some (v, oft'))
    (hdn : fmt = Fmt.Dn → bytesToNatLE ((buf.drop oft).take 2) % 8 = 0) :
    packFmt fmt v = Option.some ((buf.drop oft).take (oft' - oft)) ∧
    oft < oft' ∧ oft' ≤ buf.length := by
  cases fmt
  case N1 => simp [readFmt] at hread
  case R4 => simp [readFmt] at hread
  case R8 => simp [readFmt] at hread
  case U1 =>
    simp only [readFmt, Option.map_eq_some'] at hread
    obtain ⟨bs, hbs, hval⟩ := hread
    obtain ⟨hslice, hlen, hle, hlt⟩ := readBytes_spec buf oft 1 bs hb hbs
    cases hval
    have hu : bytesToNatLE bs < 256 := by
      have h0 := bytesToNatLE_lt bs hlt
      rw [hlen] at h0
      simpa using h0
    refine ⟨?_, by omega, by omega⟩
    simp only [packFmt]
    rw [if_pos ⟨Int.natCast_nonneg _, by exact_mod_cast hu⟩]
    have h1 : oft + 1 - oft = 1 := by omega
    rw [h1, ← hslice]
    obtain ⟨b, rfl⟩ := List.length_eq_one.mp hlen
    simp [bytesToNatLE]
  case B1 =>
    simp only [readFmt, Option.map_eq_some'] at hread
    obtain ⟨bs, hbs, hval⟩ := hread
    obtain ⟨hslice, hlen, hle, hlt⟩ := readBytes_spec buf oft 1 bs hb hbs
    cases hval
    have hu : bytesToNatLE bs < 256 := by
      have h0 := bytesToNatLE_lt bs hlt
      rw [hlen] at h0
      simpa using h0
    refine ⟨?_, by omega, by omega⟩
    simp only [packFmt]
    rw [if_pos ⟨Int.natCast_nonneg _, by exact_mod_cast hu⟩]
    have h1 : oft + 1 - oft = 1 := by omega
    rw [h1, ← hslice]
    obtain ⟨b, rfl⟩ := List.length_eq_one.mp hlen
    simp [bytesToNatLE]
  case C1 =>
    simp only [readFmt, Option.map_eq_some'] at hread
    obtain ⟨bs, hbs, hval⟩ := hread
    obtain ⟨hslice, hlen, hle, hlt⟩ := readBytes_spec buf oft 1 bs hb hbs
    cases hval
    refine ⟨?_, by omega, by omega⟩
    obtain ⟨b, hb1⟩ := List.length_eq_one.mp hlen
    rw [hb1]
    simp only [packFmt]
    have h1 : oft + 1 - oft = 1 := by omega
    rw [h1, ← hslice, hb1]
  case U2 =>
    simp only [readFmt, Option.map_eq_some'] at hread
    obtain ⟨bs, hbs, hval⟩ := hread
    obtain ⟨hslice, hlen, hle, hlt⟩ := readBytes_spec buf oft 2 bs hb hbs
    cases hval
    have hu : bytesToNatLE bs < 65536 := by
      have h0 := bytesToNatLE_lt bs hlt
      rw [hlen] at h0
      norm_num at h0
      exact h0
    refine ⟨?_, by omega, by omega⟩
    simp only [packFmt]
    rw [if_pos ⟨Int.natCast_nonneg _, by exact_mod_cast hu⟩]
    have h1 : oft + 2 - oft = 2 := by omega
    rw [h1, ← hslice]
    have h2 := natToBytesLE_bytesToNatLE bs hlt
    rw [hlen] at h2
    simp only [Int.toNat_natCast, h2]
  case U4 =>
    simp only [readFmt, Option.map_eq_some'] at hread
    obtain ⟨bs, hbs, hval⟩ := hread
    obtain ⟨hslice, hlen, hle, hlt⟩ := readBytes_spec buf oft 4 bs hb hbs
    cases hval
    have hu : bytesToNatLE bs < 4294967296 := by
      have h0 := bytesToNatLE_lt bs hlt
      rw [hlen] at h0
      norm_num at h0
      exact h0
    refine ⟨?_, by omega, by omega⟩
    simp only [packFmt]
    rw [if_pos ⟨Int.natCast_nonneg _, by exact_mod_cast hu⟩]
    have h1 : oft + 4 - oft = 4 := by omega
    rw [h1, ← hslice]
    have h2 := natToBytesLE_bytesToNatLE bs hlt
    rw [hlen] at h2
    simp only [Int.toNat_natCast, h2]
  case I1 =>
    simp only [readFmt, Option.map_eq_some'] at hread
    obtain ⟨bs, hbs, hval⟩ := hread
    obtain ⟨hslice, hlen, hle, hlt⟩ := readBytes_spec buf oft 1 bs hb hbs
    cases hval
    have hu : bytesToNatLE bs < 2 ^ (8 * 1) := by
      have h0 := bytesToNatLE_lt bs hlt
      rw [hlen] at h0
      norm_num at h0 ⊢
      exact h0
    obtain ⟨hneg, hlt2, hmod⟩ := toSigned_spec 1 (by omega) (bytesToNatLE bs) hu
    norm_num at hneg hlt2 hmod
    refine ⟨?_, by omega, by omega⟩
    simp only [packFmt]
    rw [if_pos ⟨hneg, hlt2⟩]
    have h1 : oft + 1 - oft = 1 := by omega
    rw [h1, ← hslice, hmod]
    obtain ⟨b, rfl⟩ := List.length_eq_one.mp hlen
    simp [bytesToNatLE]
  case I2 =>
    simp only [readFmt, Option.map_eq_some'] at hread
    obtain ⟨bs, hbs, hval⟩ := hread
    obtain ⟨hslice, hlen, hle, hlt⟩ := readBytes_spec buf oft 2 bs hb hbs
    cases hval
    have hu : bytesToNatLE bs < 2 ^ (8 * 2) := by
      have h0 := bytesToNatLE_lt bs hlt
      rw [hlen] at h0
      norm_num at h0 ⊢
      exact h0
    obtain ⟨hneg, hlt2, hmod⟩ := toSigned_spec 2 (by omega) (bytesToNatLE bs) hu
    norm_num at hneg hlt2 hmod
    refine ⟨?_, by omega, by omega⟩
    simp only [packFmt]
    rw [if_pos ⟨hneg, hlt2⟩]
    have h1 : oft + 2 - oft = 2 := by omega
    rw [h1, ← hslice, hmod]
    have h2 := natToBytesLE_bytesToNatLE bs hlt
    rw [hlen] at h2
    rw [h2]
  case I4 =>
    simp only [readFmt, Option.map_eq_some'] at hread
    obtain ⟨bs, hbs, hval⟩ := hread
    obtain ⟨hslice, hlen, hle, hlt⟩ := readBytes_spec buf oft 4 bs hb hbs
    cases hval
    have hu : bytesToNatLE bs < 2 ^ (8 * 4) := by
      have h0 := bytesToNatLE_lt bs hlt
      rw [hlen] at h0
      norm_num at h0 ⊢
      exact h0
    obtain ⟨hneg, hlt2, hmod⟩ := toSigned_spec 4 (by omega) (bytesToNatLE bs) hu
    norm_num at hneg hlt2 hmod
    refine ⟨?_, by omega, by omega⟩
    simp only [packFmt]
    rw [if_pos ⟨hneg, hlt2⟩]
    have h1 : oft + 4 - oft = 4 := by omega
    rw [h1, ← hslice, hmod]
    have h2 := natToBytesLE_bytesToNatLE bs hlt
    rw [hlen] at h2
    rw [h2]
  case Cn =>
    rcases hsz : readBytes buf oft 1 with _ | szb
    · have heq : readFmt Fmt.Cn buf oft = Option.none := by
        simp only [readFmt, hsz]
      rw [heq] at hread
      cases hread
    · obtain ⟨hslice1, hlen1, hle1, hlt1⟩ := readBytes_spec buf oft 1 szb hb hsz
      by_cases hz : bytesToNatLE szb = 0
      · have heq : readFmt Fmt.Cn buf oft = Option.some (Val.str [], oft + 1) := by
          simp only [readFmt, hsz, hz, if_pos]
        rw [heq] at hread
        cases hread
        refine ⟨?_, by omega, by omega⟩
        simp only [packFmt, List.length_nil]
        rw [if_pos (by omega)]
        have h1 : oft + 1 - oft = 1 := by omega
        rw [h1, ← hslice1]
        obtain ⟨b, rfl⟩ := List.length_eq_one.mp hlen1
        simp only [bytesToNatLE] at hz
        have hb0 : b = 0 := by omega
        rw [hb0]
      · rcases hct : readBytes buf (oft + 1) (bytesToNatLE szb) with _ | content
        · have heq : readFmt Fmt.Cn buf oft = Option.none := by
            simp only [readFmt, hsz, if_neg hz, hct, Option.map_none']
          rw [heq] at hread
          cases hread
        · have heq : readFmt Fmt.Cn buf oft =
              Option.some (Val.str content, oft + 1 + bytesToNatLE szb) := by
            simp only [readFmt, hsz, if_neg hz, hct, Option.map_some']
          rw [heq] at hread
          cases hread
          obtain ⟨hslice2, hlen2, hle2, hlt2⟩ :=
            readBytes_spec buf (oft + 1) (bytesToNatLE szb) content hb hct
          have hszlt : bytesToNatLE szb < 256 := by
            have h0 := bytesToNatLE_lt szb hlt1
            rw [hlen1] at h0
            simpa using h0
          refine ⟨?_, by omega, by omega⟩
          simp only [packFmt]
          rw [if_pos (by rw [hlen2]; omega)]
          have h1 : oft + 1 + bytesToNatLE szb - oft = 1 + bytesToNatLE szb := by
            omega
          rw [h1, slice_split buf oft 1 (bytesToNatLE szb), ← hslice1, ← hslice2,
            hlen2]
          obtain ⟨b, rfl⟩ := List.length_eq_one.mp hlen1
          simp [bytesToNatLE]
  case Bn =>
    rcases hsz : readBytes buf oft 1 with _ | szb
    · have heq : readFmt Fmt.Bn buf oft = Option.none := by
        simp only [readFmt, hsz]
      rw [heq] at hread
      cases hread
    · obtain ⟨hslice1, hlen1, hle1, hlt1⟩ := readBytes_spec buf oft 1 szb hb hsz
      rcases hct : readBytes buf (oft + 1) (bytesToNatLE szb) with _ | content
      · have heq : readFmt Fmt.Bn buf oft = Option.none := by
          simp only [readFmt, hsz, hct, Option.map_none']
        rw [heq] at hread
        cases hread
      · have heq : readFmt Fmt.Bn buf oft =
            Option.some (Val.bytes content, oft + 1 + bytesToNatLE szb) := by
          simp only [readFmt, hsz, hct, Option.map_some']
        rw [heq] at hread
        cases hread
        obtain ⟨hslice2, hlen2, hle2, hlt2⟩ :=
          readBytes_spec buf (oft + 1) (bytesToNatLE szb) content hb hct
        have hszlt : bytesToNatLE szb < 256 := by
          have h0 := bytesToNatLE_lt szb hlt1
          rw [hlen1] at h0
          simpa using h0
        refine ⟨?_, by omega, by omega⟩
        simp only [packFmt, byteSeq]
        rw [if_pos (by simpa using hlt2)]
        simp only [Option.some_bind ]
        rw [if_pos (by rw [hlen2]; omega)]
        have h1 : oft + 1 + bytesToNatLE szb - oft = 1 + bytesToNatLE szb := by
          omega
        rw [h1, slice_split buf oft 1 (bytesToNatLE szb), ← hslice1, ← hslice2,
          hlen2]
        obtain ⟨b, rfl⟩ := List.length_eq_one.mp hlen1
        simp [bytesToNatLE]
  case Dn =>
    rcases hsz : readBytes buf oft 2 with _ | szb
    · have heq : readFmt Fmt.Dn buf oft = Option.none := by
        simp only [readFmt, hsz]
      rw [heq] at hread
      cases hread
    · obtain ⟨hslice1, hlen1, hle1, hlt1⟩ := readBytes_spec buf oft 2 szb hb hsz
      have halign : bytesToNatLE szb % 8 = 0 := by
        have h0 := hdn rfl
        rw [← hslice1] at h0
        exact h0
      have hsize : bytesToNatLE szb / 8 +
          (if bytesToNatLE szb % 8 > 0 then 1 else 0) = bytesToNatLE szb / 8 := by
        rw [halign]
        simp
      rcases hct : readBytes buf (oft + 2) (bytesToNatLE szb / 8 +
          (if bytesToNatLE szb % 8 > 0 then 1 else 0)) with _ | content
      · have heq : readFmt Fmt.Dn buf oft = Option.none := by
          simp only [readFmt, hsz, hct, Option.map_none']
        rw [heq] at hread
        cases hread
      · have heq : readFmt Fmt.Dn buf oft =
            Option.some (Val.bytes content,
              oft + 2 + (bytesToNatLE szb / 8 +
                (if bytesToNatLE szb % 8 > 0 then 1 else 0))) := by
          simp only [readFmt, hsz, hct, Option.map_some']
        rw [heq] at hread
        cases hread
        rw [hsize] at hct
        obtain ⟨hslice2, hlen2, hle2, hlt2⟩ :=
          readBytes_spec buf (oft + 2) (bytesToNatLE szb / 8) content hb hct
        have hbits : content.length * 8 = bytesToNatLE szb := by
          rw [hlen2]
          omega
        have hbitslt : bytesToNatLE szb < 65536 := by
          have h0 := bytesToNatLE_lt szb hlt1
          rw [hlen1] at h0
          norm_num at h0
          exact h0
        refine ⟨?_, by omega, by omega⟩
        simp only [packFmt, byteSeq]
        rw [if_pos (by simpa using hlt2)]
        simp only [Option.some_bind]
        rw [if_pos (by omega)]
        have h2 := natToBytesLE_bytesToNatLE szb hlt1
        rw [hlen1] at h2
        rw [hbits, h2]
        have h1 : oft + 2 + (bytesToNatLE szb / 8 +
            (if bytesToNatLE szb % 8 > 0 then 1 else 0)) - oft =
            2 + bytesToNatLE szb / 8 := by
          rw [halign]
          simp
          omega
        rw [h1, slice_split buf oft 2 (bytesToNatLE szb / 8), ← hslice1,
          ← hslice2]

theorem reduceOr_eq_none_iff (values : List Val) :
    reduceOr values = Option.none ↔ values = [] := by
  cases values <;> simp [reduceOr]

theorem encodeGo_cons_scalar (all : List Field) (f : Field) (rest : List Field)
    (i : Nat) (vals : List Val) (pd : List (List Nat)) (v : Val) (b : List Nat)
    (hv : vals.getD i Val.none = v) (hvne : v ≠ Val.none)
    (ha : f.arrayFmt = Option.none)
    (hgen : f.name.startsWith GEN_DATA = false)
    (hpack : packFmt f.fmt v = Option.some b) :
    encodeGo all (f :: rest) i vals pd =
      encodeGo all rest (i + 1) vals (pd.set i b) := by
  simp only [encodeGo, hv, if_neg hvne, ha, hgen, Bool.false_eq_true, if_false,
    hpack]

theorem roundtrip_go (buf : List Nat) (hb : ∀ b ∈ buf, b < 256)
    (all : List Field) :
    ∀ (fl : List Field) (oft i : Nat) (vals : List Val) (pd : List (List Nat)),
    conformingFrom buf fl oft = true →
    i + fl.length ≤ vals.length →
    (decodeGo buf fl i vals oft).status = DecStatus.complete ∧
    (decodeGo buf fl i vals oft).truncated = false ∧
    (decodeGo buf fl i vals oft).oft = buf.length ∧
    (∀ k, i ≤ k → k < i + fl.length →
      (decodeGo buf fl i vals oft).vals.getD k Val.none ≠ Val.none) ∧
    ∃ bs : List (List Nat),
      encodeGo all fl i (decodeGo buf fl i vals oft).vals pd =
        Except.ok ((decodeGo buf fl i vals oft).vals, overwriteSeq pd i bs) ∧
      bs.length = fl.length ∧ bs.flatten = buf.drop oft := by
  intro fl
  induction fl with
  | nil =>
      intro oft i vals pd hc hlen
      simp only [conformingFrom, beq_iff_eq] at hc
      refine ⟨rfl, rfl, hc, ?_, [], rfl, rfl, ?_⟩
      · intro k hk1 hk2
        simp only [List.length_nil] at hk2
        omega
      · rw [hc]
        exact (List.drop_length buf).symm
  | cons f rest ih =>
      intro oft i vals pd hc hlen
      simp only [conformingFrom, Bool.and_eq_true, beq_iff_eq,
        Bool.not_eq_true'] at hc
      obtain ⟨⟨ha, hgen⟩, hc2⟩ := hc
      rcases hr : readFmt f.fmt buf oft with _ | ⟨v, oft'⟩
      · rw [hr] at hc2
        cases hc2
      · rw [hr] at hc2
        simp only [Bool.and_eq_true] at hc2
        obtain ⟨hdnb, hcrest⟩ := hc2
        have hdn : f.fmt = Fmt.Dn →
            bytesToNatLE ((buf.drop oft).take 2) % 8 = 0 := by
          intro hf
          rw [if_pos hf] at hdnb
          simpa using hdnb
        obtain ⟨hpack, hlt, hle⟩ := pack_of_read f.fmt buf oft v oft' hb hr hdn
        have hnotge : ¬(oft ≥ buf.length) := by omega
        have hvne : v ≠ Val.none := readFmt_ne_none f.fmt buf oft v oft' hr
        have hilt : i < vals.length := by
          simp only [List.length_cons] at hlen
          omega
        have hdec : decodeGo buf (f :: rest) i vals oft =
            decodeGo buf rest (i + 1) (vals.set i v) oft' := by
          simp only [decodeGo, if_neg hnotge, ha, hr]
        rw [hdec]
        obtain ⟨ihst, ihtr, ihoft, ihnn, bs', ihenc, ihlen, ihflat⟩ :=
          ih oft' (i + 1) (vals.set i v)
            (pd.set i ((buf.drop oft).take (oft' - oft))) hcrest
            (by rw [List.length_set]
                simp only [List.length_cons] at hlen
                omega)
        have hvi : (decodeGo buf rest (i + 1) (vals.set i v) oft').vals.getD i
            Val.none = v := by
          rw [(decodeGo_vals_shape buf rest (i + 1) (vals.set i v) oft').2 i
            (by omega)]
          exact getD_set_self _ _ _ _ hilt
        refine ⟨ihst, ihtr, ihoft, ?_, ?_⟩
        · intro k hk1 hk2
          rcases eq_or_lt_of_le hk1 with rfl | hklt
          · rw [hvi]
            exact hvne
          · exact ihnn k (by omega)
              (by simp only [List.length_cons] at hk2 ⊢; omega)
        · have hencstep := encodeGo_cons_scalar all f rest i
            (decodeGo buf rest (i + 1) (vals.set i v) oft').vals pd v
            ((buf.drop oft).take (oft' - oft)) hvi hvne ha hgen hpack
          rw [hencstep, ihenc]
          refine ⟨((buf.drop oft).take (oft' - oft)) :: bs', rfl, ?_, ?_⟩
          · simp [ihlen]
          · have harith : oft + (oft' - oft) = oft' := by omega
            have hdd : (buf.drop oft).drop (oft' - oft) = buf.drop oft' := by
              rw [List.drop_drop, harith]
            have hjoin : (buf.drop oft).take (oft' - oft) ++ buf.drop oft' =
                buf.drop oft := by
              rw [← hdd, List.take_append_drop]
            simp only [List.flatten_cons, ihflat, hjoin]

/-- C1 (amended): for every record whose payload buffer is a complete
conforming encoding of its scalar/variable field map - every field present
on the wire, the decode walk ending exactly at the end of the buffer, and
every Dn bit count byte aligned (the documented bit-count exception: the
encoder re-emits eight times the byte count) - decoding completes without
truncation and re-encoding the record with exactly the decoded value vector
reproduces the source buffer byte for byte.  The unamended claim fails on
trailing-optional truncation (see the counterexample). -/
theorem roundtrip_complete_buffer (fields : List Field) (buf : List Nat)
    (hb : ∀ b ∈ buf, b < 256) (hc : conformingFrom buf fields 0 = true) :
    (decodeValues fields buf).status = DecStatus.complete ∧
    (decodeValues fields buf).truncated = false ∧
    (encodeRecord fields buf (decodeValues fields buf).vals).map joinEncoded =
      Except.ok buf := by
  obtain ⟨hst, htr, hoft, hnn, bs, henc, hlenbs, hflat⟩ :=
    roundtrip_go buf hb fields fields 0 0
      (List.replicate fields.length Val.none) (List.replicate fields.length [])
      hc (by simp)
  refine ⟨hst, htr, ?_⟩
  unfold decodeValues
  have hvlen :
      (decodeGo buf fields 0 (List.replicate fields.length Val.none) 0).vals.length
        = fields.length := by
    rw [(decodeGo_vals_shape buf fields 0 _ 0).1, List.length_replicate]
  unfold encodeRecord
  split_ifs with h1 h2
  · exfalso
    have hvnil := (reduceOr_eq_none_iff _).mp h1.2
    have hflen : fields.length = 0 := by
      rw [← hvlen, hvnil]
      rfl
    have hfe : fields = [] := List.length_eq_zero.mp hflen
    subst hfe
    simp only [conformingFrom, beq_iff_eq] at hc
    exact h1.1 (List.length_eq_zero.mp hc.symm)
  · exfalso
    obtain ⟨hne, hall, hlast⟩ := (reduceOr_some_none_iff _).mp h2.2
    have hlen1 : 1 ≤
        (decodeGo buf fields 0 (List.replicate fields.length Val.none) 0).vals.length :=
      List.length_pos.mpr hne
    have h3 :
        (decodeGo buf fields 0 (List.replicate fields.length Val.none) 0).vals[
          (decodeGo buf fields 0 (List.replicate fields.length Val.none) 0).vals.length - 1]?
          = Option.some Val.none := by
      rw [← List.getLast?_eq_getElem?]
      exact hlast
    have hgd :
        (decodeGo buf fields 0 (List.replicate fields.length Val.none) 0).vals.getD
          ((decodeGo buf fields 0 (List.replicate fields.length Val.none) 0).vals.length - 1)
          Val.none = Val.none := by
      simp [List.getD, h3]
    exact hnn _ (Nat.zero_le _) (by rw [hvlen] at hlen1 ⊢; omega) hgd
  · rw [henc]
    show Except.ok (joinEncoded (Sum.inr
        (overwriteSeq (List.replicate fields.length []) 0 bs))) = Except.ok buf
    congr 1
    simp only [joinEncoded]
    rw [overwriteSeq_eq bs (List.replicate fields.length []) 0
      (by simp [hlenbs])]
    have hdropnil :
        (List.replicate fields.length ([] : List Nat)).drop (0 + bs.length) = [] := by
      rw [hlenbs]
      simp
    rw [hdropnil]
    simp only [List.take_zero, List.nil_append, List.append_nil]
    rw [hflat, List.drop_zero]

/-- Witness for the amended C1 at a concrete FAR record. -/
theorem roundtrip_complete_buffer_witness :
    (decodeValues farFields [2, 4]).status = DecStatus.complete ∧
    (decodeValues farFields [2, 4]).truncated = false ∧
    (encodeRecord farFields [2, 4] (decodeValues farFields [2, 4]).vals).map
        joinEncoded = Except.ok [2, 4] :=
  roundtrip_complete_buffer farFields [2, 4] (by decide) (by decide)

/-! Encode-loop invariants for the array-count development. -/

theorem packFmt_val_none (fmt : Fmt) : packFmt fmt Val.none = Option.none := by
  cases fmt <;> rfl

theorem nonNone_set (l : List Val) (c : Nat) (v : Val) (hv : v ≠ Val.none)
    (h : ∀ k, k < l.length → l.getD k Val.none ≠ Val.none) :
    ∀ k, k < (l.set c v).length → (l.set c v).getD k Val.none ≠ Val.none := by
  intro k hk
  rw [List.length_set] at hk
  by_cases hck : c = k
  · subst hck
    rw [getD_set_self _ _ _ _ hk]
    exact hv
  · rw [getD_set_ne _ _ _ _ _ hck]
    exact h k hk

/-- What encodeArrayField does when it succeeds: the value slot holds a
list, its elements pack to one byte slot, and either the stored count
already equals the element count (only the array slot is written) or the
count value and the count slot are both rewritten with the actual count. -/
theorem encodeArrayField_spec (all : List Field) (i : Nat) (ef : Fmt) (c : Nat)
    (vals : List Val) (pd : List (List Nat)) (vals₂ : List Val)
    (pd₂ : List (List Nat))
    (h : encodeArrayField all i ef c vals pd = Except.ok (vals₂, pd₂)) :
    ∃ vs bs, vals.getD i Val.none = Val.list vs ∧
      ((vals.getD c Val.none = Val.num vs.length ∧ vals₂ = vals ∧
          pd₂ = pd.set i bs) ∨
       (∃ cb, packFmt (all.getD c default).fmt (Val.num vs.length) =
            Option.some cb ∧
          vals₂ = vals.set c (Val.num vs.length) ∧
          pd₂ = (pd.set c cb).set i bs)) := by
  unfold encodeArrayField at h
  split at h
  · rename_i vs heq
    split at h
    · cases h
    · rename_i bs hbs
      simp only [ne_eq] at h
      split_ifs at h with hcnt
      · cases h
        exact ⟨vs, bs, heq, Or.inl ⟨hcnt, rfl, rfl⟩⟩
      · replace h := h.symm
        split at h
        · cases h
        · rename_i cb hcb
          cases h
          exact ⟨vs, bs, heq, Or.inr ⟨cb, hcb, rfl, rfl⟩⟩
  · cases h


/-- The failing scalar step of the encode loop. -/
theorem encodeGo_cons_scalar_err (all : List Field) (f : Field)
    (rest : List Field) (i : Nat) (vals : List Val) (pd : List (List Nat))
    (v : Val) (hv : vals.getD i Val.none = v) (hvne : v ≠ Val.none)
    (ha : f.arrayFmt = Option.none)
    (hgen : f.name.startsWith GEN_DATA = false)
    (hpack : packFmt f.fmt v = Option.none) :
    encodeGo all (f :: rest) i vals pd =
      Except.error "EndOfRecordException: pack" := by
  simp only [encodeGo, hv, if_neg hvne, ha, hgen, Bool.false_eq_true, if_false,
    hpack]

/-- The array step of the encode loop on a present value. -/
theorem encodeGo_cons_array (all : List Field) (f : Field) (rest : List Field)
    (i : Nat) (vals : List Val) (pd : List (List Nat)) (ef : Fmt)
    (hv : vals.getD i Val.none ≠ Val.none)
    (ha : f.arrayFmt = Option.some ef) :
    encodeGo all (f :: rest) i vals pd =
      match encodeArrayField all i ef f.arrayNdx vals pd with
      | Except.error e => Except.error e
      | Except.ok (vals₂, pd₂) => encodeGo all rest (i + 1) vals₂ pd₂ := by
  simp only [encodeGo, if_neg hv, ha]

/-- The encode loop over a concatenation runs the two halves in sequence. -/
theorem encodeGo_append (all : List Field) (l₂ : List Field) :
    ∀ (l₁ : List Field) (i : Nat) (vals : List Val) (pd : List (List Nat)),
    encodeGo all (l₁ ++ l₂) i vals pd =
      match encodeGo all l₁ i vals pd with
      | Except.error e => Except.error e
      | Except.ok (vals₁, pd₁) => encodeGo all l₂ (i + l₁.length) vals₁ pd₁ := by
  intro l₁
  induction l₁ with
  | nil =>
      intro i vals pd
      simp [encodeGo]
  | cons f fs ih =>
      intro i vals pd
      have harith : i + 1 + fs.length = i + (fs.length + 1) := by omega
      simp only [List.cons_append, encodeGo]
      by_cases hm : vals.getD i Val.none = Val.none
      · simp only [if_pos hm]
        rcases hmf : encodeMissingField all f i vals pd with e | ⟨va, pa, bs⟩
        · simp only [hmf]
        · simp only [hmf, List.append_eq, ih, List.length_cons, harith]
      · simp only [if_neg hm]
        rcases ha : f.arrayFmt with _ | ef
        · by_cases hg : f.name.startsWith GEN_DATA = true
          · simp only [if_pos hg]
            rcases hp : packVn f.fmt (vals.getD i Val.none) with _ | bs
            · simp only [hp]
            · simp only [hp, List.append_eq, ih, List.length_cons, harith]
          · simp only [if_neg hg]
            rcases hp : packFmt f.fmt (vals.getD i Val.none) with _ | bs
            · simp only [hp]
            · simp only [hp, List.append_eq, ih, List.length_cons, harith]
        · rcases harr : encodeArrayField all i ef f.arrayNdx vals pd
              with e | ⟨va, pa⟩
          · simp only [harr]
          · simp only [harr, List.append_eq, ih, List.length_cons, harith]

/-- What a successful run of the encode loop preserves when every value is
present: the two list lengths, presence of every value, every value slot no
array field of the segment names as its count, and every byte slot below the
start index that no array field of the segment names as its count. -/
theorem encodeGo_preserved (all : List Field) :
    ∀ (fl : List Field) (i : Nat) (vals : List Val) (pd : List (List Nat))
      (vals₂ : List Val) (pd₂ : List (List Nat)),
    encodeGo all fl i vals pd = Except.ok (vals₂, pd₂) →
    i + fl.length ≤ vals.length →
    (∀ k, k < vals.length → vals.getD k Val.none ≠ Val.none) →
    vals₂.length = vals.length ∧ pd₂.length = pd.length ∧
    (∀ k, k < vals.length → vals₂.getD k Val.none ≠ Val.none) ∧
    (∀ t, (∀ f ∈ fl, f.arrayFmt.isSome = true → f.arrayNdx ≠ t) →
      vals₂.getD t Val.none = vals.getD t Val.none) ∧
    (∀ t, t < i →
      (∀ f ∈ fl, f.arrayFmt.isSome = true → f.arrayNdx ≠ t) →
      pd₂.getD t [] = pd.getD t []) := by
  intro fl
  induction fl with
  | nil =>
      intro i vals pd vals₂ pd₂ henc _ hnn
      simp only [encodeGo] at henc
      cases henc
      exact ⟨rfl, rfl, hnn, fun _ _ => rfl, fun _ _ _ => rfl⟩
  | cons f fs ih =>
      intro i vals pd vals₂ pd₂ henc hlen hnn
      have hi : i < vals.length := by
        simp only [List.length_cons] at hlen
        omega
      have hlen' : (i + 1) + fs.length ≤ vals.length := by
        simp only [List.length_cons] at hlen
        omega
      simp only [encodeGo] at henc
      split at henc
      · rename_i hmiss
        exact absurd hmiss (hnn i hi)
      · rename_i hmiss
        split at henc
        · rename_i ef ha
          split at henc
          · cases henc
          · rename_i va pa harr
            obtain ⟨vs, bs, hvi, hcase⟩ :=
              encodeArrayField_spec all i ef f.arrayNdx vals pd va pa harr
            rcases hcase with ⟨hcv, rfl, rfl⟩ | ⟨cb, hcb, rfl, rfl⟩
            · obtain ⟨h1, h2, h3, h4, h5⟩ :=
                ih _ _ _ _ _ henc hlen' hnn
              refine ⟨h1, by rw [h2, List.length_set], h3, ?_, ?_⟩
              · intro t ht
                exact h4 t fun g hg => ht g (List.mem_cons_of_mem f hg)
              · intro t hti ht
                rw [h5 t (by omega) fun g hg => ht g (List.mem_cons_of_mem f hg)]
                exact getD_set_ne _ _ _ _ _ (by omega)
            · have hnn₂ := nonNone_set vals f.arrayNdx (Val.num vs.length)
                (fun hx => Val.noConfusion hx) hnn
              have hlen₂ : (i + 1) + fs.length ≤
                  (vals.set f.arrayNdx (Val.num vs.length)).length := by
                rw [List.length_set]
                exact hlen'
              obtain ⟨h1, h2, h3, h4, h5⟩ :=
                ih (i + 1) _ _ vals₂ pd₂ henc hlen₂ hnn₂
              rw [List.length_set] at h1
              refine ⟨h1, by rw [h2, List.length_set, List.length_set], ?_, ?_, ?_⟩
              · intro k hk
                have hk' : k < (vals.set f.arrayNdx (Val.num vs.length)).length := by
                  rw [List.length_set]
                  exact hk
                exact h3 k hk'
              · intro t ht
                have hct : f.arrayNdx ≠ t :=
                  ht f (List.mem_cons_self f fs) (by rw [ha]; rfl)
                rw [h4 t fun g hg => ht g (List.mem_cons_of_mem f hg)]
                exact getD_set_ne _ _ _ _ _ hct
              · intro t hti ht
                have hct : f.arrayNdx ≠ t :=
                  ht f (List.mem_cons_self f fs) (by rw [ha]; rfl)
                rw [h5 t (by omega) fun g hg => ht g (List.mem_cons_of_mem f hg)]
                rw [getD_set_ne _ _ _ _ _ (by omega : i ≠ t)]
                exact getD_set_ne _ _ _ _ _ hct
        · rename_i ha
          split at henc
          · rename_i hg
            split at henc
            · cases henc
            · rename_i bs hp
              obtain ⟨h1, h2, h3, h4, h5⟩ :=
                ih (i + 1) vals (pd.set i bs) vals₂ pd₂ henc hlen' hnn
              refine ⟨h1, by rw [h2, List.length_set], h3, ?_, ?_⟩
              · intro t ht
                exact h4 t fun g hg => ht g (List.mem_cons_of_mem f hg)
              · intro t hti ht
                rw [h5 t (by omega) fun g hg => ht g (List.mem_cons_of_mem f hg)]
                exact getD_set_ne _ _ _ _ _ (by omega)
          · rename_i hg
            split at henc
            · cases henc
            · rename_i bs hp
              obtain ⟨h1, h2, h3, h4, h5⟩ :=
                ih (i + 1) vals (pd.set i bs) vals₂ pd₂ henc hlen' hnn
              refine ⟨h1, by rw [h2, List.length_set], h3, ?_, ?_⟩
              · intro t ht
                exact h4 t fun g hg => ht g (List.mem_cons_of_mem f hg)
              · intro t hti ht
                rw [h5 t (by omega) fun g hg => ht g (List.mem_cons_of_mem f hg)]
                exact getD_set_ne _ _ _ _ _ (by omega)

/-- The count-slot invariant: once the byte slot of field c holds exactly
the packed bytes of the current value of field c, every later step of the
encode loop maintains that relation (scalar steps write their own later
slot; an array step that names c as its count rewrites the two in sync). -/
theorem encodeGo_phi (all : List Field) (c : Nat) :
    ∀ (fl : List Field) (i : Nat) (vals : List Val) (pd : List (List Nat))
      (vals₂ : List Val) (pd₂ : List (List Nat)),
    encodeGo all fl i vals pd = Except.ok (vals₂, pd₂) →
    c < i → c < pd.length →
    i + fl.length ≤ vals.length →
    (∀ k, k < vals.length → vals.getD k Val.none ≠ Val.none) →
    packFmt (all.getD c default).fmt (vals.getD c Val.none) =
      Option.some (pd.getD c []) →
    packFmt (all.getD c default).fmt (vals₂.getD c Val.none) =
      Option.some (pd₂.getD c []) := by
  intro fl
  induction fl with
  | nil =>
      intro i vals pd vals₂ pd₂ henc _ _ _ _ hphi
      simp only [encodeGo] at henc
      cases henc
      exact hphi
  | cons f fs ih =>
      intro i vals pd vals₂ pd₂ henc hci hcpd hlen hnn hphi
      have hi : i < vals.length := by
        simp only [List.length_cons] at hlen
        omega
      have hlen' : (i + 1) + fs.length ≤ vals.length := by
        simp only [List.length_cons] at hlen
        omega
      simp only [encodeGo] at henc
      split at henc
      · rename_i hmiss
        exact absurd hmiss (hnn i hi)
      · rename_i hmiss
        split at henc
        · rename_i ef ha
          split at henc
          · cases henc
          · rename_i va pa harr
            obtain ⟨vs, bs, hvi, hcase⟩ :=
              encodeArrayField_spec all i ef f.arrayNdx vals pd va pa harr
            rcases hcase with ⟨hcv, rfl, rfl⟩ | ⟨cb, hcb, rfl, rfl⟩
            · refine ih _ _ _ _ _ henc (by omega)
                (by rw [List.length_set]; exact hcpd) hlen' hnn ?_
              rw [getD_set_ne _ _ _ _ _ (by omega : i ≠ c)]
              exact hphi
            · by_cases hcc : f.arrayNdx = c
              · subst hcc
                have hclt : f.arrayNdx < vals.length := by
                  by_contra hno
                  rw [List.getD_eq_default vals _ (by omega)] at hphi
                  rw [packFmt_val_none] at hphi
                  cases hphi
                refine ih (i + 1) _ _ vals₂ pd₂ henc (by omega)
                    (by rw [List.length_set, List.length_set]; exact hcpd)
                    (by rw [List.length_set]; exact hlen')
                    (nonNone_set vals f.arrayNdx (Val.num vs.length)
                      (fun hx => Val.noConfusion hx) hnn) ?_
                rw [getD_set_self _ _ _ _ hclt]
                rw [getD_set_ne _ _ _ _ _ (by omega : i ≠ f.arrayNdx)]
                rw [getD_set_self _ _ _ _ hcpd]
                exact hcb
              · refine ih (i + 1) _ _ vals₂ pd₂ henc (by omega)
                    (by rw [List.length_set, List.length_set]; exact hcpd)
                    (by rw [List.length_set]; exact hlen')
                    (nonNone_set vals f.arrayNdx (Val.num vs.length)
                      (fun hx => Val.noConfusion hx) hnn) ?_
                rw [getD_set_ne _ _ _ _ _ hcc]
                rw [getD_set_ne _ _ _ _ _ (by omega : i ≠ c)]
                rw [getD_set_ne _ _ _ _ _ hcc]
                exact hphi
        · rename_i ha
          split at henc
          · rename_i hg
            split at henc
            · cases henc
            · rename_i bs hp
              refine ih _ _ _ _ _ henc (by omega)
                  (by rw [List.length_set]; exact hcpd) hlen' hnn ?_
              rw [getD_set_ne _ _ _ _ _ (by omega : i ≠ c)]
              exact hphi
          · rename_i hg
            split at henc
            · cases henc
            · rename_i bs hp
              refine ih _ _ _ _ _ henc (by omega)
                  (by rw [List.length_set]; exact hcpd) hlen' hnn ?_
              rw [getD_set_ne _ _ _ _ _ (by omega : i ≠ c)]
              exact hphi

/-- C8 counterexample: the V4 MPR map makes RTN_STAT (slot 7) and RTN_INDX
(slot 19) both name field 5 (RTN_ICNT) as their count.  Encoding an MPR
whose RTN_STAT holds two nibbles while RTN_INDX holds one index succeeds,
RTN_STAT packs its two elements into one nibble byte [33], but the emitted
count slot holds [1, 0] - the count of the later RTN_INDX, not of RTN_STAT,
whose packed element count 2 would emit [2, 0].  The per-array coherence
stated by the claim fails for every array that is not the last writer of
its shared count field. -/
theorem encode_shared_count_incoherent :
    encodeRecord mprFields [] mprValues = Except.ok (Sum.inr mprPd) ∧
    (mprFields.getD 7 default).arrayNdx = 5 ∧
    (mprFields.getD 19 default).arrayNdx = 5 ∧
    mprValues.getD 7 Val.none = Val.list [Val.num 1, Val.num 2] ∧
    mprValues.getD 19 Val.none = Val.list [Val.num 7] ∧
    mprPd.getD 5 [] = [1, 0] ∧
    mprPd.getD 7 [] = [33] ∧
    mprPd.getD 19 [] = [7, 0] ∧
    packFmt (mprFields.getD 5 default).fmt (Val.num 2) =
      Option.some [2, 0] := by
  refine ⟨by decide, by decide, by decide, by decide, by decide, by decide,
    by decide, by decide, by decide⟩

/-- C8 (amended): array-count coherence holds for the LAST array field that
names a given count field.  For a schema encode that succeeds on a record
whose values are all present, with field i an array whose count field is
c < i, where the count field is a plain scalar, no array anywhere names i
as its count, and no array after i names c as its count, the emitted byte
slot of field c is exactly the packed actual element count of the array at
i (encodeArrayField rewrites the already-emitted count bytes whenever the
stored count disagrees, which is the second half of the claim). -/
theorem encode_last_array_count_coherent
    (fields : List Field) (buffer : List Nat) (values : List Val)
    (pd : List (List Nat)) (c i : Nat) (ef : Fmt) (vs : List Val)
    (hci : c < i) (hin : i < fields.length)
    (hn : values.length = fields.length)
    (haf : (fields.getD i default).arrayFmt = Option.some ef)
    (hac : (fields.getD i default).arrayNdx = c)
    (hcs : (fields.getD c default).arrayFmt = Option.none)
    (hcg : (fields.getD c default).name.startsWith GEN_DATA = false)
    (hvi : values.getD i Val.none = Val.list vs)
    (hnn : ∀ k, k < values.length → values.getD k Val.none ≠ Val.none)
    (hno : ∀ f ∈ fields, f.arrayFmt.isSome = true → f.arrayNdx ≠ i)
    (hlast : ∀ f ∈ fields.drop (i + 1), f.arrayFmt.isSome = true →
      f.arrayNdx ≠ c)
    (henc : encodeRecord fields buffer values = Except.ok (Sum.inr pd)) :
    ∃ cb, packFmt (fields.getD c default).fmt (Val.num vs.length) =
        Option.some cb ∧ pd.getD c [] = cb := by
  have hclen : c < fields.length := by omega
  unfold encodeRecord at henc
  split_ifs at henc with h1 h2 <;> try cases henc
  rcases hloop : encodeGo fields fields 0 values
      (List.replicate fields.length []) with e | ⟨vfin, pfin⟩
  · rw [hloop] at henc
    cases henc
  rw [hloop] at henc
  have hpd : pd = pfin := (Sum.inr.inj (Except.ok.inj henc)).symm
  subst hpd
  have hdc : fields.drop c = fields.getD c default :: fields.drop (c + 1) := by
    rw [List.drop_eq_getElem_cons hclen, List.getD_eq_getElem fields default hclen]
  have hdi : fields.drop i = fields.getD i default :: fields.drop (i + 1) := by
    rw [List.drop_eq_getElem_cons hin, List.getD_eq_getElem fields default hin]
  have hmid : fields.drop (c + 1) =
      (fields.drop (c + 1)).take (i - (c + 1)) ++
        (fields.getD i default :: fields.drop (i + 1)) := by
    conv_lhs => rw [← List.take_append_drop (i - (c + 1)) (fields.drop (c + 1))]
    rw [List.drop_drop, show c + 1 + (i - (c + 1)) = i from by omega, hdi]
  have hfields : fields = fields.take c ++ (fields.getD c default ::
      ((fields.drop (c + 1)).take (i - (c + 1)) ++
        (fields.getD i default :: fields.drop (i + 1)))) := by
    conv_lhs => rw [← List.take_append_drop c fields, hdc, hmid]
  have hloop₂ : encodeGo fields (fields.take c ++ (fields.getD c default ::
      ((fields.drop (c + 1)).take (i - (c + 1)) ++
        (fields.getD i default :: fields.drop (i + 1))))) 0 values
      (List.replicate fields.length []) = Except.ok (vfin, pd) := by
    rw [← hfields]
    exact hloop
  have hAlen : (fields.take c).length = c := by
    rw [List.length_take]
    omega
  rw [encodeGo_append] at hloop₂
  rcases hA : encodeGo fields (fields.take c) 0 values
      (List.replicate fields.length []) with e | ⟨v₁, p₁⟩
  · simp only [hA] at hloop₂
    cases hloop₂
  simp only [hA, hAlen, Nat.zero_add] at hloop₂
  obtain ⟨e1, e2, e3, e4, e5⟩ := encodeGo_preserved fields (fields.take c)
      0 values (List.replicate fields.length []) v₁ p₁ hA
      (by rw [Nat.zero_add, hAlen]; omega) hnn
  have hp₁len : p₁.length = fields.length := by
    rw [e2, List.length_replicate]
  have hnn₁ : ∀ k, k < v₁.length → v₁.getD k Val.none ≠ Val.none := by
    intro k hk
    exact e3 k (by omega)
  have hv₁i : v₁.getD i Val.none = Val.list vs := by
    rw [e4 i fun g hg hs => hno g (List.take_subset _ _ hg) hs]
    exact hvi
  have hw : v₁.getD c Val.none ≠ Val.none := hnn₁ c (by omega)
  rcases hpc : packFmt (fields.getD c default).fmt (v₁.getD c Val.none)
      with _ | cb₀
  · rw [encodeGo_cons_scalar_err fields (fields.getD c default) _ c v₁ p₁
        (v₁.getD c Val.none) rfl hw hcs hcg hpc] at hloop₂
    cases hloop₂
  rw [encodeGo_cons_scalar fields (fields.getD c default) _ c v₁ p₁
      (v₁.getD c Val.none) cb₀ rfl hw hcs hcg hpc] at hloop₂
  have hphi₀ : packFmt (fields.getD c default).fmt (v₁.getD c Val.none) =
      Option.some ((p₁.set c cb₀).getD c []) := by
    rw [getD_set_self _ _ _ _ (by omega : c < p₁.length)]
    exact hpc
  rw [encodeGo_append] at hloop₂
  rcases hB : encodeGo fields ((fields.drop (c + 1)).take (i - (c + 1)))
      (c + 1) v₁ (p₁.set c cb₀) with e | ⟨v₃, p₃⟩
  · simp only [hB] at hloop₂
    cases hloop₂
  have hmidlen : (c + 1) +
      ((fields.drop (c + 1)).take (i - (c + 1))).length = i := by
    rw [List.length_take, List.length_drop]
    omega
  simp only [hB, hmidlen] at hloop₂
  have hlenB : (c + 1) +
      ((fields.drop (c + 1)).take (i - (c + 1))).length ≤ v₁.length := by
    rw [List.length_take, List.length_drop]
    omega
  obtain ⟨f1, f2, f3, f4, f5⟩ := encodeGo_preserved fields
      ((fields.drop (c + 1)).take (i - (c + 1))) (c + 1) v₁
      (p₁.set c cb₀) v₃ p₃ hB hlenB hnn₁
  have hphi₃ := encodeGo_phi fields c
      ((fields.drop (c + 1)).take (i - (c + 1))) (c + 1) v₁
      (p₁.set c cb₀) v₃ p₃ hB (by omega)
      (by rw [List.length_set]; omega) hlenB hnn₁ hphi₀
  have hv₃i : v₃.getD i Val.none = Val.list vs := by
    rw [f4 i fun g hg hs =>
      hno g (List.drop_subset _ _ (List.take_subset _ _ hg)) hs]
    exact hv₁i
  have hv₃len : v₃.length = v₁.length := f1
  have hp₃len : p₃.length = fields.length := by
    rw [f2, List.length_set, hp₁len]
  have hnn₃ : ∀ k, k < v₃.length → v₃.getD k Val.none ≠ Val.none := by
    intro k hk
    exact f3 k (by omega)
  have hv₃ne : v₃.getD i Val.none ≠ Val.none := by
    rw [hv₃i]
    exact fun hx => Val.noConfusion hx
  rw [encodeGo_cons_array fields (fields.getD i default)
      (fields.drop (i + 1)) i v₃ p₃ ef hv₃ne haf, hac] at hloop₂
  rcases harr : encodeArrayField fields i ef c v₃ p₃ with e | ⟨v₄, p₄⟩
  · simp only [harr] at hloop₂
    cases hloop₂
  simp only [harr] at hloop₂
  obtain ⟨vs', bs, hvi', hcase⟩ :=
    encodeArrayField_spec fields i ef c v₃ p₃ v₄ p₄ harr
  have hvs : vs = vs' := by
    rw [hv₃i] at hvi'
    exact Val.list.inj hvi'
  subst hvs
  have hfacts : packFmt (fields.getD c default).fmt
        (Val.num vs.length) = Option.some (p₄.getD c []) ∧
      (∀ k, k < v₄.length → v₄.getD k Val.none ≠ Val.none) ∧
      v₄.length = v₃.length := by
    rcases hcase with ⟨hcv, hveq, hpeq⟩ | ⟨cb, hcb, hveq, hpeq⟩
    · refine ⟨?_, ?_, by rw [hveq]⟩
      · rw [hpeq, getD_set_ne _ _ _ _ _ (by omega : i ≠ c)]
        rw [hcv] at hphi₃
        exact hphi₃
      · intro k hk
        rw [hveq] at hk ⊢
        exact hnn₃ k hk
    · refine ⟨?_, ?_, by rw [hveq, List.length_set]⟩
      · rw [hpeq, getD_set_ne _ _ _ _ _ (by omega : i ≠ c)]
        rw [getD_set_self _ _ _ _ (by omega : c < p₃.length)]
        exact hcb
      · rw [hveq]
        exact nonNone_set v₃ c _ (fun hx => Val.noConfusion hx) hnn₃
  obtain ⟨hΨ, hnn₄, hlen₄'⟩ := hfacts
  have hlen₄ : (i + 1) + (fields.drop (i + 1)).length ≤ v₄.length := by
    rw [List.length_drop, hlen₄', hv₃len, e1, hn]
    omega
  obtain ⟨g1, g2, g3, g4, g5⟩ := encodeGo_preserved fields
      (fields.drop (i + 1)) (i + 1) v₄ p₄ vfin pd hloop₂ hlen₄ hnn₄
  exact ⟨p₄.getD c [], hΨ, g5 c (by omega) hlast⟩

/-- Witness for the amended C8 on the three-field schema CNT/ARR/TAIL,
where ARR holds two elements while CNT stores 5: the emitted count slot is
the re-packed actual count [2]. -/
theorem encode_last_array_count_coherent_witness :
    ∃ cb, packFmt (cntFields.getD 0 default).fmt
        (Val.num (([Val.num 1, Val.num 2] : List Val).length)) =
        Option.some cb ∧
      ([[2], [1, 2], [9]] : List (List Nat)).getD 0 [] = cb :=
  encode_last_array_count_coherent cntFields []
    [Val.num 5, Val.list [Val.num 1, Val.num 2], Val.num 9]
    [[2], [1, 2], [9]] 0 1 Fmt.U1 [Val.num 1, Val.num 2]
    (by decide) (by decide) (by decide) (by decide) (by decide) (by decide)
    (by decide) (by decide) (by decide) (by decide) (by decide) (by decide)

end PyStdf
